import Mathlib

/-!
# Convolutional gridding with W-projection (`Gridding/Benchmark.cc`)

A shallow embedding of `Benchmark::gridKernel`, `Benchmark::initC` and
`Benchmark::initCOffset`, with the coordinates and frequencies that `Benchmark::init`
generates.

Conventions of the embedding.

* `Coord` (a C `double`) is an arbitrary coefficient type `K`: a commutative ring for the
  gridding kernel, a linearly ordered field with a floor function for the code that converts
  to `int`.  Arithmetic is exact, except in the binary64 reading of the fractional index
  (`roundDouble`, `fracIndexD`), where each operation rounds.
* `Value` (`std::complex<Coord>`) is a pair of coordinates with the usual product.
* C `int` values are unbounded integers; `/` on them is division truncating toward zero.
* Storage written by index (the raw pointers `gptr`, `cptr`, `tmp` and the table `C`) is a
  total map from an integer index to its content; `gptr` and `cptr` index coordinates, so the
  complex cell `c` occupies the coordinates `2*c` and `2*c+1`.
* The vectors `samples`, `u`, `v`, `w` and `freq` are lists.
* The split fractions `DIVISION` are exact rationals.
* A counted `for` loop is `forLoop`; the OpenMP loops and the offloaded blocks are executed
  sequentially, in program order.
-/

namespace Gridding

/-! ## Loops -/

/-- Counted loop `for (int i = 0; i < n; i++) body(i)`: runs `body 0`, then `body 1`, up to
`body (n-1)`, threading the state. -/
def forLoop {σ : Type} : Nat → (Nat → σ → σ) → σ → σ
  | 0, _, s => s
  | n + 1, body, s => body n (forLoop n body s)

/-- Loop `for (int i = lo; i < hi; ++i) body(i)` over C integers. -/
def forRange {σ : Type} (lo hi : Int) (body : Int → σ → σ) (s : σ) : σ :=
  forLoop (hi - lo).toNat (fun t => body (lo + (t : Int))) s

/-! ## Data model -/

/-- Complex number `std::complex<Coord>` with components `real()` and `imag()`. -/
structure Value (K : Type) where
  real : K
  imag : K
deriving DecidableEq, Repr

/-- Record `Sample`: the visibility `data` (bytes 0..15), the grid indices `iu` (byte 16) and
`iv` (byte 20) and the table offset `cOffset` (byte 24). -/
structure Sample (K : Type) where
  data : Value K
  iu : Int
  iv : Int
  cOffset : Int
deriving DecidableEq, Repr

/-- Conversion `int(x)` of a floating value: truncation toward zero. -/
def toInt {K : Type} [LinearOrderedField K] [FloorRing K] (x : K) : Int :=
  if 0 ≤ x then ⌊x⌋ else ⌈x⌉

/-! ## `Benchmark::gridKernel` -/

/-- Value `PICESE = 1.0f/NUM_OF_CARDS`. -/
def PICESE (NUM_OF_CARDS : Nat) : ℚ := 1 / (NUM_OF_CARDS : ℚ)

/-- Array `DIVISION[NUM_OF_CARDS+1]` of split fractions (lines 138-154). -/
def DIVISION (NUM_OF_CARDS : Nat) : List ℚ :=
  if NUM_OF_CARDS = 2 then [0, 1 / 2, 1]
  else if NUM_OF_CARDS = 3 then [0, 31 / 100, 60 / 100, 1]
  else (List.range NUM_OF_CARDS).map (fun (i : Nat) => (i : ℚ) * PICESE NUM_OF_CARDS) ++ [1]

/-- Lower bound `mindind = int(DIVISION[imic] * samplessize)` of worker `imic` (line 182). -/
def mindind (NUM_OF_CARDS : Nat) (samplessize : Int) (imic : Nat) : Int :=
  toInt ((DIVISION NUM_OF_CARDS).getD imic 0 * (samplessize : ℚ))

/-- Upper bound `maxdind = int(DIVISION[imic+1] * samplessize)` of worker `imic` (line 183). -/
def maxdind (NUM_OF_CARDS : Nat) (samplessize : Int) (imic : Nat) : Int :=
  toInt ((DIVISION NUM_OF_CARDS).getD (imic + 1) 0 * (samplessize : ℚ))

section Kernel

variable {K : Type} [CommRing K]

/-- Statement `gptr[ig] += x`. -/
def addAt (gptr : Int → K) (ig : Int) (x : K) : Int → K :=
  Function.update gptr ig (gptr ig + x)

/-- Body of the sample loop (lines 193-222): scatter one sample into `gptr`.  The row loop
runs over `suppv`, the column loop over `suppu`; `ig` and `ic` index coordinates, so the
complex cell is `ig / 2`. -/
def gridSample (support gSize : Int) (cptr : Int → K) (s : Sample K) (gptr : Int → K) :
    Int → K :=
  let sSize : Int := 2 * support + 1
  let dreal := s.data.real
  let dimag := s.data.imag
  let gind0 : Int := s.iu + gSize * s.iv - support
  let cind0 : Int := s.cOffset
  forLoop sSize.toNat (fun suppv g =>
    let gind : Int := (gind0 + gSize * (suppv : Int)) * 2
    let cind : Int := (cind0 + sSize * (suppv : Int)) * 2
    forLoop sSize.toNat (fun suppu g =>
      let ig : Int := gind + 2 * (suppu : Int)
      let ic : Int := cind + 2 * (suppu : Int)
      let g1 := addAt g ig (dreal * cptr ic - dimag * cptr (ic + 1))
      addAt g1 (ig + 1) (dreal * cptr (ic + 1) + dimag * cptr ic)) g) gptr

/-- Record `dind` of `samples`, read through `sptr` (lines 193-198); there is none outside
the vector. -/
def sampleAt (samples : List (Sample K)) (dind : Int) : Option (Sample K) :=
  if 0 ≤ dind then samples[dind.toNat]? else none

/-- Loop `for (int dind = mindind; dind < maxdind; ++dind)` (line 192) over the records of
`samples`. -/
def sampleLoop (support gSize : Int) (cptr : Int → K) (samples : List (Sample K))
    (lo hi : Int) (gptr : Int → K) : Int → K :=
  forRange lo hi (fun dind g =>
    match sampleAt samples dind with
    | some s => gridSample support gSize cptr s g
    | none => g) gptr

/-- Offload transfer `out(gptr:length(gridsize) into(itmp))` with `itmp = tmp + gridsize*imic`:
the device buffer `dev` is copied into block `imic` of `tmp`. -/
def copyOut (gridsize : Int) (imic : Nat) (dev tmp : Int → K) : Int → K :=
  fun p =>
    if gridsize * (imic : Int) ≤ p ∧ p < gridsize * (imic : Int) + gridsize then
      dev (p - gridsize * (imic : Int))
    else tmp p

/-- Accumulation phase (lines 181-225).  The state is the pair of the shared grid and the
scratch area `tmp`.  Worker `imic < MAX_MIC` runs on device `imic`, in a device buffer whose
initial content is `dev0 imic`, and its buffer is copied into `tmp`; the last worker runs on
the host, directly in the shared grid. -/
def accumulate (MAX_MIC : Nat) (support gSize : Int) (cptr : Int → K)
    (samples : List (Sample K)) (gridsize : Int) (dev0 : Nat → Int → K)
    (st : (Int → K) × (Int → K)) : (Int → K) × (Int → K) :=
  let samplessize : Int := (samples.length : Int)
  let NUM_OF_CARDS := MAX_MIC + 1
  forLoop NUM_OF_CARDS (fun imic st =>
    let lo := mindind NUM_OF_CARDS samplessize imic
    let hi := maxdind NUM_OF_CARDS samplessize imic
    if imic < MAX_MIC then
      (st.1, copyOut gridsize imic (sampleLoop support gSize cptr samples lo hi (dev0 imic)) st.2)
    else
      (sampleLoop support gSize cptr samples lo hi st.1, st.2)) st

/-- Reduction phase (lines 227-235): `gptr[i] += tmp[i+imic*gridsize]`. -/
def reduce (MAX_MIC : Nat) (gridsize : Int) (tmp : Int → K) (gptr : Int → K) : Int → K :=
  forLoop MAX_MIC (fun imic g =>
    forLoop gridsize.toNat (fun i g => addAt g (i : Int) (tmp ((i : Int) + (imic : Int) * gridsize)))
      g) gptr

/-- Function `Benchmark::gridKernel`.  `MAX_MIC` is the device count returned by
`_Offload_number_of_devices()`, `gridLen` is `grid.size()`, `tmp` is the content of the
freshly allocated scratch area and `dev0 imic` the initial content of the buffer of
device `imic`. -/
def gridKernel (MAX_MIC : Nat) (support : Int) (cptr : Int → K) (gptr : Int → K)
    (gridLen : Nat) (gSize : Int) (samples : List (Sample K)) (tmp : Int → K)
    (dev0 : Nat → Int → K) : Int → K :=
  let gridsize : Int := (gridLen : Int) * 2
  let st := accumulate MAX_MIC support gSize cptr samples gridsize dev0 (gptr, tmp)
  reduce MAX_MIC gridsize st.2 st.1

/-- Reference of the partition-invariance property: one worker accumulates all samples, in
order, into the shared grid. -/
def singleWorker (support gSize : Int) (cptr : Int → K) (samples : List (Sample K))
    (gptr : Int → K) : Int → K :=
  samples.foldl (fun g s => gridSample support gSize cptr s g) gptr

end Kernel

/-! ## `Benchmark::initC` -/

section InitTable

variable {K : Type} [LinearOrderedField K]

/-- Functions of `<cmath>` called by `initC`: `sqrt`, `std::cos` and `std::exp`. -/
structure CMath (K : Type) where
  sqrt : K → K
  cos : K → K
  exp : K → K

/-- Conversion `static_cast<Value>(x)`, also written `Value(x)`: the complex number `x + 0i`. -/
def Value.ofCoord (x : K) : Value K := ⟨x, 0⟩

/-- Product of `std::complex` values. -/
def Value.mul (a b : Value K) : Value K :=
  ⟨a.real * b.real - a.imag * b.imag, a.real * b.imag + a.imag * b.real⟩

/-- Magnitude `std::abs(z)` of a complex value. -/
def Value.abs (M : CMath K) (z : Value K) : K :=
  M.sqrt (z.real * z.real + z.imag * z.imag)

/-- Results of `initC`: the reference parameters `support`, `overSample`, `wCellSize` and the
table `C`. -/
structure InitCOut (K : Type) where
  support : Int
  overSample : Int
  wCellSize : K
  C : Int → Value K

/-- Value `wCellSize = 2 * baseline * freq[0] / wSize` (line 261). -/
def initWCellSize (baseline : K) (freq : List K) (wSize : Int) : K :=
  2 * baseline * freq.getD 0 0 / (wSize : K)

/-- Index `cind` of line 291. -/
def cindex (sSize overSample : Int) (i j osi osj k : Int) : Int :=
  i + sSize * (j + sSize * (osi + overSample * (osj + overSample * k)))

/-- Value stored at `C[cind]` (lines 287, 290, 293-297) for plane value `w` and scale
`fScale`. -/
def cEntry (M : CMath K) (cCenter overSample : Int) (w fScale : K) (osj osi j i : Nat) :
    Value K :=
  let j2 : K := ((((j : Int) - cCenter : Int) : K) + ((osj : Int) : K) / (overSample : K)) ^ 2
  let r2 : K :=
    j2 + ((((i : Int) - cCenter : Int) : K) + ((osi : Int) : K) / (overSample : K)) ^ 2
  if w ≠ 0 then Value.ofCoord (M.cos (r2 / (w * fScale)))
  else Value.ofCoord (M.exp (-r2))

/-- Loop over `i` (lines 289-298). -/
def fillRow (M : CMath K) (sSize overSample cCenter : Int) (w fScale : K)
    (k osj osi j : Nat) (C : Int → Value K) : Int → Value K :=
  forLoop sSize.toNat (fun i C =>
    Function.update C (cindex sSize overSample i j osi osj k)
      (cEntry M cCenter overSample w fScale osj osi j i)) C

/-- Loop over `j` (lines 286-299). -/
def fillKernel (M : CMath K) (sSize overSample cCenter : Int) (w fScale : K)
    (k osj osi : Nat) (C : Int → Value K) : Int → Value K :=
  forLoop sSize.toNat (fun j C => fillRow M sSize overSample cCenter w fScale k osj osi j C) C

/-- Loop over `osi` (lines 285-300). -/
def fillOsi (M : CMath K) (sSize overSample cCenter : Int) (w fScale : K)
    (k osj : Nat) (C : Int → Value K) : Int → Value K :=
  forLoop overSample.toNat (fun osi C =>
    fillKernel M sSize overSample cCenter w fScale k osj osi C) C

/-- Loop over `osj` (lines 284-301). -/
def fillPlane (M : CMath K) (sSize overSample cCenter : Int) (w fScale : K)
    (k : Nat) (C : Int → Value K) : Int → Value K :=
  forLoop overSample.toNat (fun osj C => fillOsi M sSize overSample cCenter w fScale k osj C) C

/-- Plane value `w = double(k - wSize / 2)` (line 281). -/
def planeW (wSize : Int) (k : Nat) : K := ((((k : Int) - wSize.tdiv 2 : Int)) : K)

/-- Scale `fScale = sqrt(std::abs(w) * wCellSize * freq[0]) / cellSize` (line 282). -/
def planeFScale (M : CMath K) (freq : List K) (cellSize wCellSize w : K) : K :=
  M.sqrt (|w| * wCellSize * freq.getD 0 0) / cellSize

/-- Loop over `k` (lines 280-302): the table before normalisation. -/
def fillC (M : CMath K) (freq : List K) (cellSize : K) (wSize support overSample : Int)
    (wCellSize : K) (C : Int → Value K) : Int → Value K :=
  let sSize : Int := 2 * support + 1
  let cCenter : Int := (sSize - 1).tdiv 2
  forLoop wSize.toNat (fun k C =>
    let w : K := planeW wSize k
    let fScale : K := planeFScale M freq cellSize wCellSize w
    fillPlane M sSize overSample cCenter w fScale k C) C

/-- Loop of lines 305-309: `sumC += std::abs(C[i])` for `i < n`. -/
def sumAbs (M : CMath K) (C : Int → Value K) (n : Nat) : K :=
  forLoop n (fun i sumC => sumC + Value.abs M (C (i : Int))) 0

/-- Loop of lines 311-313: `C[i] *= Value(x)` for `i < n`. -/
def scaleC (C : Int → Value K) (n : Nat) (x : K) : Int → Value K :=
  forLoop n (fun i C => Function.update C (i : Int) (Value.mul (C (i : Int)) (Value.ofCoord x))) C

/-- Number of entries `sSize*sSize*overSample*overSample*wSize` of the table. -/
def tableSize (support overSample wSize : Int) : Int :=
  (2 * support + 1) * (2 * support + 1) * overSample * overSample * wSize

end InitTable

section Init

variable {K : Type} [LinearOrderedField K] [FloorRing K]

/-- Support computed at lines 256-257. -/
def initSupport (M : CMath K) (baseline : K) (freq : List K) (cellSize : K) : Int :=
  toInt (3 / 2 * M.sqrt (|baseline| * cellSize * freq.getD 0 0) / cellSize)

/-- Table of `initC` after the construction loops and before normalisation (state at
line 303).  `C0` is the content of the storage after `C.resize`. -/
def initCTable (M : CMath K) (baseline : K) (freq : List K) (cellSize : K) (wSize : Int)
    (C0 : Int → Value K) : Int → Value K :=
  fillC M freq cellSize wSize (initSupport M baseline freq cellSize) 8
    (initWCellSize baseline freq wSize) C0

/-- Function `Benchmark::initC`. -/
def initC (M : CMath K) (baseline : K) (freq : List K) (cellSize : K) (wSize : Int)
    (C0 : Int → Value K) : InitCOut K :=
  let support : Int := initSupport M baseline freq cellSize
  let overSample : Int := 8
  let wCellSize : K := initWCellSize baseline freq wSize
  let C1 := fillC M freq cellSize wSize support overSample wCellSize C0
  let n : Nat := (tableSize support overSample wSize).toNat
  let sumC : K := sumAbs M C1 n
  let C2 := scaleC C1 n ((((wSize * overSample * overSample : Int)) : K) / sumC)
  ⟨support, overSample, wCellSize, C2⟩

/-! ## `Benchmark::initCOffset` -/

/-- Floor of lines 343-347 (and 353-357): `int(x)`, decremented when `x < Coord(int(x))`. -/
def floorIndex (x : K) : Int :=
  let i : Int := toInt x
  if x < (i : K) then i - 1 else i

/-- Fractional index of line 349 (and 359): `int(overSample * (x - Coord(i)))` with `i` the
floor just computed, in exact arithmetic (`fracIndexD` is the same line on doubles). -/
def fracIndex (overSample : Int) (x : K) : Int :=
  toInt ((overSample : K) * (x - (floorIndex x : K)))

/-- Plane index `woff = wSize / 2 + int(wScaled)` (line 364). -/
def wPlaneIndex (wSize : Int) (wScaled : K) : Int :=
  wSize.tdiv 2 + toInt wScaled

/-- Body of the channel loop (lines 340-365) on the record `samples[dind]`, for the channel
frequency `f` and the coordinates `(ui, vi, wi)` of the sample. -/
def offsetRecord (f ui vi wi cellSize wCellSize : K) (wSize gSize support overSample : Int)
    (s : Sample K) : Sample K :=
  let sSize : Int := 2 * support + 1
  let uScaled : K := f * ui / cellSize
  let fracu : Int := fracIndex overSample uScaled
  let vScaled : K := f * vi / cellSize
  let fracv : Int := fracIndex overSample vScaled
  let wScaled : K := f * wi / wCellSize
  let woff : Int := wPlaneIndex wSize wScaled
  { s with
    iu := floorIndex uScaled + gSize.tdiv 2
    iv := floorIndex vScaled + gSize.tdiv 2
    cOffset := sSize * sSize * (fracu + overSample * (fracv + overSample * woff)) }

/-- Function `Benchmark::initCOffset`, acting on the member `samples`. -/
def initCOffset (u v w freq : List K) (cellSize wCellSize : K)
    (wSize gSize support overSample : Int) (samples : List (Sample K)) : List (Sample K) :=
  let nSamples : Nat := u.length
  let nChan : Nat := freq.length
  forLoop nSamples (fun i samples =>
    forLoop nChan (fun chan samples =>
      let dind : Nat := i * nChan + chan
      samples.modify
        (offsetRecord (freq.getD chan 0) (u.getD i 0) (v.getD i 0) (w.getD i 0) cellSize
          wCellSize wSize gSize support overSample) dind) samples) samples

end Init

/-! ## Table offset and the synthetic input of `Benchmark::init` -/

/-- Table offset of line 365, `sSize * sSize * (fracu + overSample * (fracv + overSample * woff))`,
as a function of its five integers. -/
def cOffsetOf (sSize overSample fracu fracv woff : Int) : Int :=
  sSize * sSize * (fracu + overSample * (fracv + overSample * woff))

section InitInput

variable {K : Type} [LinearOrderedField K]

/-- Coordinate `baseline * rd - baseline / 2` that `init` derives from the value `rd` read from
the input file (lines 71, 73 and 75). -/
def initCoord (baseline rd : K) : K := baseline * rd - baseline / 2

/-- Channel frequency `(1.4e9 - 2.0e5 * Coord(i) / Coord(nChan)) / 2.998e8` of `init`
(line 92). -/
def initFreq (nChan i : Nat) : K :=
  (1400000000 - 200000 * (i : K) / (nChan : K)) / 299800000

end InitInput

/-! ## Binary64 reading of the fractional index

`Coord` is an 8-byte floating type (`gridKernel` reads the imaginary part at byte 8 of the
data).  The definitions above read the arithmetic of `initCOffset` exactly; the ones below
read lines 342-349 on `double` values, each operation rounding its exact result. -/

/-- Nearest integer of a rational, ties to the even one. -/
def roundEven (x : ℚ) : Int :=
  let f : Int := ⌊x⌋
  if x - (f : ℚ) < 1 / 2 then f
  else if 1 / 2 < x - (f : ℚ) then f + 1
  else if f % 2 = 0 then f else f + 1

/-- Rounding of an exact result to a `double`: IEEE 754 binary64, 53 significant bits, round
to nearest, ties to even; for results in the normal range. -/
def roundDouble (x : ℚ) : ℚ :=
  if x = 0 then 0
  else
    let e : Int := Int.log 2 |x|
    let ulp : ℚ := 2 ^ (e - 52)
    (roundEven (x / ulp) : ℚ) * ulp

/-- Value `uScaled = freq[chan] * u[i] / cellSize` of line 342 on doubles. -/
def uScaledD (f u cellSize : ℚ) : ℚ := roundDouble (roundDouble (f * u) / cellSize)

/-- Fractional index of line 349 on doubles: `int(overSample * (uScaled - Coord(iu)))`, the
subtraction and the product each rounded; `iu` is the floor of lines 343-347, which is exact
on doubles. -/
def fracIndexD (overSample : Int) (x : ℚ) : Int :=
  toInt (roundDouble ((overSample : ℚ) * roundDouble (x - (floorIndex x : ℚ))))

/-- Pointer `cptr = &C[0].real()` of line 161: the coordinates of the table `C`, entry `c`
at `2*c` (real part) and `2*c + 1` (imaginary part). -/
def coordView {K : Type} (C : Int → Value K) : Int → K :=
  fun p => if p % 2 = 0 then (C (p / 2)).real else (C (p / 2)).imag

/-! ## The construction loops of `initC`, generic in the effect of a write

The loops of lines 280-302 once more, with the statement `C[cind] = value` as a parameter
`write`: with `storeWrite` they are the loops `fillRow` to `fillC` above, with `logWrite`
they record the sequence of writes in program order. -/

section InitLog

variable {K : Type} [LinearOrderedField K] {σ : Type}

/-- Statement `C[cind] = v` on the table. -/
def storeWrite (cind : Int) (v : Value K) (C : Int → Value K) : Int → Value K :=
  Function.update C cind v

/-- Statement `C[cind] = v` on a log of writes: the pair is appended. -/
def logWrite (cind : Int) (v : Value K) (W : List (Int × Value K)) : List (Int × Value K) :=
  W ++ [(cind, v)]

/-- The log `W` holds one write to each of the indices `0, 1, ..., c-1`, in this order. -/
def LogUpTo (W : List (Int × Value K)) (c : Int) : Prop :=
  0 ≤ c ∧ W.map Prod.fst = (List.range c.toNat).map (fun n : Nat => (n : Int))

/-- The table obtained from `C` by performing the logged writes in order. -/
def replayLog (W : List (Int × Value K)) (C : Int → Value K) : Int → Value K :=
  W.foldl (fun C p => storeWrite p.1 p.2 C) C

/-- Loop over `i` (lines 289-298). -/
def fillRowG (write : Int → Value K → σ → σ) (M : CMath K) (sSize overSample cCenter : Int)
    (w fScale : K) (k osj osi j : Nat) (st : σ) : σ :=
  forLoop sSize.toNat (fun i st =>
    write (cindex sSize overSample i j osi osj k)
      (cEntry M cCenter overSample w fScale osj osi j i) st) st

/-- Loop over `j` (lines 286-299). -/
def fillKernelG (write : Int → Value K → σ → σ) (M : CMath K) (sSize overSample cCenter : Int)
    (w fScale : K) (k osj osi : Nat) (st : σ) : σ :=
  forLoop sSize.toNat (fun j st =>
    fillRowG write M sSize overSample cCenter w fScale k osj osi j st) st

/-- Loop over `osi` (lines 285-300). -/
def fillOsiG (write : Int → Value K → σ → σ) (M : CMath K) (sSize overSample cCenter : Int)
    (w fScale : K) (k osj : Nat) (st : σ) : σ :=
  forLoop overSample.toNat (fun osi st =>
    fillKernelG write M sSize overSample cCenter w fScale k osj osi st) st

/-- Loop over `osj` (lines 284-301). -/
def fillPlaneG (write : Int → Value K → σ → σ) (M : CMath K) (sSize overSample cCenter : Int)
    (w fScale : K) (k : Nat) (st : σ) : σ :=
  forLoop overSample.toNat (fun osj st =>
    fillOsiG write M sSize overSample cCenter w fScale k osj st) st

/-- Loop over `k` (lines 280-302). -/
def fillCG (write : Int → Value K → σ → σ) (M : CMath K) (freq : List K) (cellSize : K)
    (wSize support overSample : Int) (wCellSize : K) (st : σ) : σ :=
  let sSize : Int := 2 * support + 1
  let cCenter : Int := (sSize - 1).tdiv 2
  forLoop wSize.toNat (fun k st =>
    let w : K := planeW wSize k
    let fScale : K := planeFScale M freq cellSize wCellSize w
    fillPlaneG write M sSize overSample cCenter w fScale k st) st

end InitLog

/-! ## Concrete inputs used by the evaluations -/

/-- Convolution table whose every entry is `1 + 0i`, as the coordinate array `cptr`. -/
def unitTable : Int → ℤ := fun p => if p % 2 = 0 then 1 else 0

/-- Sample with data `1 + 0i` at grid position `(iu, iv)`, reading the table from offset 0. -/
def unitSample (iu iv : Int) : Sample ℤ := ⟨⟨1, 0⟩, iu, iv, 0⟩

/-- Grid that is zero everywhere. -/
def zeroGrid : Int → ℤ := fun _ => 0

/-- Table storage that is zero everywhere, the state after `C.resize`. -/
def zeroTable (K : Type) [Zero K] : Int → Value K := fun _ => ⟨0, 0⟩

/-- Coordinates `u` of two samples. -/
def exU : List ℚ := [-5 / 2, 3]

/-- Coordinates `v` of two samples. -/
def exV : List ℚ := [7 / 4, -1]

/-- Coordinates `w` of two samples. -/
def exW : List ℚ := [-27 / 10, 1 / 2]

/-- Frequencies of two channels. -/
def exFreq : List ℚ := [1, 2]

/-- Four sample records (two samples, two channels) before `initCOffset`. -/
def exSamples : List (Sample ℚ) :=
  [⟨⟨1, 0⟩, 0, 0, 0⟩, ⟨⟨2, 0⟩, 0, 0, 0⟩, ⟨⟨3, 0⟩, 0, 0, 0⟩, ⟨⟨4, 0⟩, 0, 0, 0⟩]

/-- Four sample records with unit data, as in scenario A, holding arbitrary earlier
offsets. -/
def centreSamples (K : Type) [Zero K] [One K] : List (Sample K) :=
  [⟨⟨1, 0⟩, 5, 6, 7⟩, ⟨⟨1, 0⟩, 0, 0, 0⟩, ⟨⟨1, 0⟩, 1, 2, 3⟩, ⟨⟨1, 0⟩, 0, 0, 0⟩]

/-- Sample with unit data at grid position `(7, 7)` whose table offset is that of the
fractional indices `(3, 5)` and plane 4, for `support = 1` and `overSample = 8`. -/
def layoutSample (K : Type) [Zero K] [One K] : Sample K :=
  ⟨⟨1, 0⟩, 7, 7, cOffsetOf (2 * 1 + 1) 8 ((3 : Nat) : Int) ((5 : Nat) : Int) ((4 : Nat) : Int)⟩

/-! ## Lemmas on loops and on the gridding kernel -/


section LoopLemmas

variable {σ : Type}

theorem forLoop_congr (n : Nat) (b1 b2 : Nat → σ → σ) (h : ∀ i, i < n → b1 i = b2 i) (s : σ) :
    forLoop n b1 s = forLoop n b2 s := by
  induction n with
  | zero => rfl
  | succ n ih =>
    simp only [forLoop]
    rw [ih (fun i hi => h i (Nat.lt_succ_of_lt hi)), h n (Nat.lt_succ_self n)]

theorem forLoop_add (m n : Nat) (body : Nat → σ → σ) (s : σ) :
    forLoop (m + n) body s = forLoop n (fun i => body (m + i)) (forLoop m body s) := by
  induction n with
  | zero => rfl
  | succ n ih =>
    show body (m + n) (forLoop (m + n) body s) = _
    rw [ih]
    rfl

theorem forLoop_obs_frame {S V : Type} (obs : S → V) (n : Nat) (body : Nat → S → S) (s : S)
    (h : ∀ j, j < n → ∀ t, obs (body j t) = obs t) : obs (forLoop n body s) = obs s := by
  induction n with
  | zero => rfl
  | succ n ih =>
    simp only [forLoop]
    rw [h n (Nat.lt_succ_self n), ih (fun j hj => h j (Nat.lt_succ_of_lt hj))]

theorem forLoop_obs_once {S V : Type} (obs : S → V) (f : V → V) (n : Nat)
    (body : Nat → S → S) (s : S) (j0 : Nat) (hj0 : j0 < n)
    (hit : ∀ t, obs (body j0 t) = f (obs t))
    (hother : ∀ j, j < n → j ≠ j0 → ∀ t, obs (body j t) = obs t) :
    obs (forLoop n body s) = f (obs s) := by
  induction n with
  | zero => exact absurd hj0 (Nat.not_lt_zero j0)
  | succ n ih =>
    simp only [forLoop]
    by_cases hj : j0 = n
    · subst hj
      rw [hit, forLoop_obs_frame obs j0 body s
        (fun j hjn => hother j (Nat.lt_succ_of_lt hjn) (Nat.ne_of_lt hjn))]
    · have hlt : j0 < n := by omega
      rw [hother n (Nat.lt_succ_self n) (fun h => hj h.symm),
        ih hlt (fun j hjn hne => hother j (Nat.lt_succ_of_lt hjn) hne)]

theorem forRange_split (a b c : Int) (hab : a ≤ b) (hbc : b ≤ c) (body : Int → σ → σ) (s : σ) :
    forRange a c body s = forRange b c body (forRange a b body s) := by
  unfold forRange
  have h1 : (c - a).toNat = (b - a).toNat + (c - b).toNat := by omega
  rw [h1, forLoop_add]
  apply forLoop_congr
  intro i _
  have h2 : a + ((b - a).toNat + i : Nat) = b + (i : Int) := by
    have : ((b - a).toNat : Int) = b - a := Int.toNat_of_nonneg (by omega)
    push_cast
    omega
  funext t
  rw [h2]

end LoopLemmas

section AccumLemmas

variable {K : Type} [CommRing K]

theorem addAt_eq (g : Int → K) (i : Int) (x : K) : addAt g i x = g + addAt 0 i x := by
  funext p
  by_cases hp : p = i
  · subst hp; simp [addAt]
  · simp [addAt, Function.update_noteq hp]

theorem addAt_apply (g : Int → K) (i : Int) (x : K) (p : Int) :
    addAt g i x p = if p = i then g i + x else g p := by
  unfold addAt
  by_cases hp : p = i
  · subst hp; simp
  · simp [Function.update_noteq hp, hp]

theorem accum_forLoop (n : Nat) (body : Nat → (Int → K) → (Int → K))
    (h : ∀ i g, body i g = g + body i 0) (g : Int → K) :
    forLoop n body g = g + forLoop n body 0 := by
  induction n with
  | zero => simp [forLoop]
  | succ n ih =>
    simp only [forLoop]
    rw [h n (forLoop n body g), h n (forLoop n body 0), ih, add_assoc]

theorem gridSample_accum (support gSize : Int) (cptr : Int → K) (s : Sample K)
    (g : Int → K) :
    gridSample support gSize cptr s g = g + gridSample support gSize cptr s 0 := by
  unfold gridSample
  apply accum_forLoop
  intro suppv g
  apply accum_forLoop
  intro suppu g
  simp only []
  rw [addAt_eq, addAt_eq g, addAt_eq (addAt 0 _ _), add_assoc]

theorem sampleLoop_accum (support gSize : Int) (cptr : Int → K) (samples : List (Sample K))
    (lo hi : Int) (g : Int → K) :
    sampleLoop support gSize cptr samples lo hi g
      = g + sampleLoop support gSize cptr samples lo hi 0 := by
  unfold sampleLoop forRange
  apply accum_forLoop
  intro t g
  simp only []
  split
  · exact gridSample_accum support gSize cptr _ g
  · simp

theorem sampleLoop_split (support gSize : Int) (cptr : Int → K) (samples : List (Sample K))
    (a b c : Int) (hab : a ≤ b) (hbc : b ≤ c) (g : Int → K) :
    sampleLoop support gSize cptr samples a c g
      = sampleLoop support gSize cptr samples b c
          (sampleLoop support gSize cptr samples a b g) := by
  unfold sampleLoop
  exact forRange_split a b c hab hbc _ g

theorem sampleLoop_all (support gSize : Int) (cptr : Int → K) (samples : List (Sample K))
    (g : Int → K) :
    sampleLoop support gSize cptr samples 0 (samples.length : Int) g
      = singleWorker support gSize cptr samples g := by
  unfold sampleLoop forRange singleWorker
  simp only [sub_zero, Int.toNat_ofNat, zero_add]
  induction samples using List.reverseRecOn with
  | nil => rfl
  | append_singleton l a ih =>
    rw [List.length_append, List.length_singleton, List.foldl_append]
    simp only [forLoop, List.foldl_cons, List.foldl_nil, sampleAt, Int.toNat_ofNat,
      Int.ofNat_nonneg, if_true]
    rw [List.getElem?_append_right (le_refl _)]
    simp only [Nat.sub_self, List.getElem?_cons_zero]
    rw [← ih]
    refine congrArg _ ?_
    apply forLoop_congr
    intro i hi
    funext t
    simp only [sampleAt, Int.toNat_ofNat, Int.ofNat_nonneg, if_true]
    rw [List.getElem?_append_left hi]

end AccumLemmas

section SplitLemmas

theorem toInt_of_nonneg {K : Type} [LinearOrderedField K] [FloorRing K] {x : K} (h : 0 ≤ x) :
    toInt x = ⌊x⌋ := if_pos h

theorem DIVISION_general (N k : Nat) (h2 : N ≠ 2) (h3 : N ≠ 3) :
    (DIVISION N).getD k 0
      = if k < N then (k : ℚ) * PICESE N else if k = N then 1 else 0 := by
  unfold DIVISION
  rw [if_neg h2, if_neg h3, List.getD_eq_getElem?_getD]
  by_cases hk : k < N
  · rw [List.getElem?_append_left (by simpa using hk)]
    simp [hk]
  · rw [List.getElem?_append_right (by simpa using hk)]
    by_cases hk2 : k = N
    · simp [hk2]
    · have : k - N ≠ 0 := by omega
      obtain ⟨j, hj⟩ := Nat.exists_eq_succ_of_ne_zero this
      simp [hk, hk2, hj]

theorem DIVISION_zero (N : Nat) (hN : 0 < N) : (DIVISION N).getD 0 0 = 0 := by
  by_cases h2 : N = 2
  · subst h2; simp [DIVISION]
  by_cases h3 : N = 3
  · subst h3; simp [DIVISION]
  rw [DIVISION_general N 0 h2 h3, if_pos hN]
  simp

theorem DIVISION_last (N : Nat) : (DIVISION N).getD N 0 = 1 := by
  by_cases h2 : N = 2
  · subst h2; simp [DIVISION]
  by_cases h3 : N = 3
  · subst h3; simp [DIVISION]
  rw [DIVISION_general N N h2 h3]
  simp

theorem DIVISION_nonneg (N k : Nat) : 0 ≤ (DIVISION N).getD k 0 := by
  by_cases h2 : N = 2
  · subst h2
    match k with
    | 0 => simp [DIVISION]
    | 1 => norm_num [DIVISION]
    | 2 => simp [DIVISION]
    | (k + 3) => simp [DIVISION]
  by_cases h3 : N = 3
  · subst h3
    match k with
    | 0 => simp [DIVISION]
    | 1 => norm_num [DIVISION]
    | 2 => norm_num [DIVISION]
    | 3 => simp [DIVISION]
    | (k + 4) => simp [DIVISION]
  rw [DIVISION_general N k h2 h3]
  split_ifs
  · unfold PICESE; positivity
  · exact zero_le_one
  · exact le_refl _

theorem DIVISION_mono (N k : Nat) (hk : k < N) :
    (DIVISION N).getD k 0 ≤ (DIVISION N).getD (k + 1) 0 := by
  by_cases h2 : N = 2
  · subst h2
    match k, hk with
    | 0, _ => norm_num [DIVISION]
    | 1, _ => norm_num [DIVISION]
  by_cases h3 : N = 3
  · subst h3
    match k, hk with
    | 0, _ => norm_num [DIVISION]
    | 1, _ => norm_num [DIVISION]
    | 2, _ => norm_num [DIVISION]
  rw [DIVISION_general N k h2 h3, DIVISION_general N (k + 1) h2 h3, if_pos hk]
  have hN : (0 : ℚ) < (N : ℚ) := by exact_mod_cast (Nat.lt_of_le_of_lt (Nat.zero_le k) hk)
  have hP : (0 : ℚ) ≤ PICESE N := by unfold PICESE; positivity
  by_cases hk1 : k + 1 < N
  · rw [if_pos hk1]
    push_cast
    nlinarith
  · have hkN : k + 1 = N := by omega
    rw [if_neg hk1, if_pos hkN]
    unfold PICESE
    rw [mul_one_div, div_le_one hN]
    exact_mod_cast hk.le

theorem mindind_zero (N : Nat) (hN : 0 < N) (n : Int) : mindind N n 0 = 0 := by
  unfold mindind
  rw [DIVISION_zero N hN]
  simp [toInt]

theorem maxdind_eq_mindind_succ (N : Nat) (n : Int) (k : Nat) :
    maxdind N n k = mindind N n (k + 1) := rfl

theorem mindind_last (N : Nat) (n : Int) (hn : 0 ≤ n) : mindind N n N = n := by
  unfold mindind
  rw [DIVISION_last N, one_mul, toInt_of_nonneg (by exact_mod_cast hn)]
  simp

theorem mindind_mono (N : Nat) (n : Int) (hn : 0 ≤ n) (k : Nat) (hk : k < N) :
    mindind N n k ≤ mindind N n (k + 1) := by
  unfold mindind
  have hq : (0 : ℚ) ≤ (n : ℚ) := by exact_mod_cast hn
  rw [toInt_of_nonneg (mul_nonneg (DIVISION_nonneg N k) hq),
    toInt_of_nonneg (mul_nonneg (DIVISION_nonneg N (k + 1)) hq)]
  exact Int.floor_mono (mul_le_mul_of_nonneg_right (DIVISION_mono N k hk) hq)

theorem mindind_nonneg (N : Nat) (n : Int) (hn : 0 ≤ n) (k : Nat) : 0 ≤ mindind N n k := by
  unfold mindind
  have hq : (0 : ℚ) ≤ (n : ℚ) := by exact_mod_cast hn
  rw [toInt_of_nonneg (mul_nonneg (DIVISION_nonneg N k) hq)]
  exact Int.floor_nonneg.mpr (mul_nonneg (DIVISION_nonneg N k) hq)

end SplitLemmas

section PartitionLemmas

variable {K : Type} [CommRing K]

theorem sampleLoop_prefix (support gSize : Int) (cptr : Int → K) (samples : List (Sample K))
    (N : Nat) (hN : 0 < N) (m : Nat) (hm : m ≤ N) (g : Int → K) :
    sampleLoop support gSize cptr samples 0 (mindind N (samples.length : Int) m) g
      = g + ∑ k in Finset.range m,
          sampleLoop support gSize cptr samples (mindind N (samples.length : Int) k)
            (maxdind N (samples.length : Int) k) 0 := by
  have hn : (0 : Int) ≤ (samples.length : Int) := Int.ofNat_nonneg _
  induction m with
  | zero =>
    rw [mindind_zero N hN]
    simp [sampleLoop, forRange, forLoop]
  | succ m ih =>
    rw [sampleLoop_split support gSize cptr samples 0 _ _ (mindind_nonneg N _ hn m)
      (mindind_mono N _ hn m (by omega)), ih (by omega), sampleLoop_accum,
      Finset.sum_range_succ, maxdind_eq_mindind_succ, add_assoc]

theorem accumulate_devices (MAX_MIC N : Nat) (support gSize : Int) (cptr : Int → K)
    (samples : List (Sample K)) (G : Int) (hG : 0 ≤ G) (dev0 : Nat → Int → K)
    (gptr tmp : Int → K) (m : Nat) (hm : m ≤ MAX_MIC) :
    let st := forLoop m (fun imic (st : (Int → K) × (Int → K)) =>
      if imic < MAX_MIC then
        (st.1, copyOut G imic (sampleLoop support gSize cptr samples
          (mindind N (samples.length : Int) imic) (maxdind N (samples.length : Int) imic)
          (dev0 imic)) st.2)
      else
        (sampleLoop support gSize cptr samples
          (mindind N (samples.length : Int) imic) (maxdind N (samples.length : Int) imic)
          st.1, st.2)) (gptr, tmp)
    st.1 = gptr ∧ ∀ k, k < m → ∀ i : Int, 0 ≤ i → i < G →
      st.2 (i + (k : Int) * G) = sampleLoop support gSize cptr samples
          (mindind N (samples.length : Int) k) (maxdind N (samples.length : Int) k)
          (dev0 k) i := by
  induction m with
  | zero => exact ⟨rfl, fun k hk => absurd hk (Nat.not_lt_zero k)⟩
  | succ m ih =>
    obtain ⟨ih1, ih2⟩ := ih (by omega)
    have hlt : m < MAX_MIC := by omega
    simp only [forLoop, if_pos hlt]
    refine ⟨ih1, ?_⟩
    intro k hk i hi0 hiG
    by_cases hkm : k = m
    · subst hkm
      have e : i + (k : Int) * G - G * (k : Int) = i := by ring
      simp only [copyOut]
      rw [if_pos ⟨by nlinarith, by nlinarith⟩, e]
    · have hk2 : k < m := by omega
      have hle : ((k : Int) + 1) * G ≤ (m : Int) * G :=
        mul_le_mul_of_nonneg_right (by exact_mod_cast hk2) hG
      simp only [copyOut]
      rw [if_neg (by intro h; nlinarith [h.1])]
      exact ih2 k hk2 i hi0 hiG

theorem reduce_inner (tmp : Int → K) (off : Int) (j : Nat) (g : Int → K) (p : Int) :
    forLoop j (fun i g => addAt g (i : Int) (tmp ((i : Int) + off))) g p
      = if 0 ≤ p ∧ p < (j : Int) then g p + tmp (p + off) else g p := by
  induction j with
  | zero =>
    simp only [forLoop]
    rw [if_neg (by intro h; have := h.2; simp at this; omega)]
  | succ j ih =>
    simp only [forLoop]
    rw [addAt_apply]
    by_cases hp : p = (j : Int)
    · subst hp
      rw [if_pos rfl, ih, if_neg (by omega), if_pos (by push_cast; omega)]
    · rw [if_neg hp, ih]
      by_cases hlt : 0 ≤ p ∧ p < (j : Int)
      · rw [if_pos hlt, if_pos (by push_cast; omega)]
      · rw [if_neg hlt, if_neg (by push_cast; omega)]

theorem reduce_apply (MAX_MIC : Nat) (G : Int) (tmp g : Int → K) (p : Int)
    (hp0 : 0 ≤ p) (hpG : p < G) :
    reduce MAX_MIC G tmp g p = g p + ∑ k in Finset.range MAX_MIC, tmp (p + (k : Int) * G) := by
  unfold reduce
  induction MAX_MIC with
  | zero => simp [forLoop]
  | succ m ih =>
    simp only [forLoop]
    rw [reduce_inner, if_pos ⟨hp0, by rw [Int.toNat_of_nonneg (by omega)]; exact hpG⟩, ih,
      Finset.sum_range_succ, add_assoc]

theorem gridKernel_apply (MAX_MIC : Nat) (support : Int) (cptr gptr : Int → K)
    (gridLen : Nat) (gSize : Int) (samples : List (Sample K)) (tmp : Int → K)
    (dev0 : Nat → Int → K) (p : Int) (hp0 : 0 ≤ p) (hpG : p < (gridLen : Int) * 2) :
    gridKernel MAX_MIC support cptr gptr gridLen gSize samples tmp dev0 p
      = singleWorker support gSize cptr samples gptr p
        + ∑ k in Finset.range MAX_MIC, dev0 k p := by
  have hG : (0 : Int) ≤ (gridLen : Int) * 2 := by positivity
  have hn : (0 : Int) ≤ (samples.length : Int) := Int.ofNat_nonneg _
  obtain ⟨h1, h2⟩ := accumulate_devices MAX_MIC (MAX_MIC + 1) support gSize cptr samples
    ((gridLen : Int) * 2) hG dev0 gptr tmp MAX_MIC (le_refl _)
  simp only [gridKernel, accumulate, forLoop, if_neg (Nat.lt_irrefl MAX_MIC)]
  rw [reduce_apply _ _ _ _ _ hp0 hpG]
  rw [h1, Finset.sum_congr rfl (fun k hk => h2 k (Finset.mem_range.mp hk) p hp0 hpG)]
  rw [← sampleLoop_all, ← mindind_last (MAX_MIC + 1) (samples.length : Int) hn,
    sampleLoop_prefix support gSize cptr samples (MAX_MIC + 1) (Nat.succ_pos _) (MAX_MIC + 1)
      (le_refl _), Finset.sum_range_succ, sampleLoop_accum,
    Finset.sum_congr rfl (fun k _ => congrFun (sampleLoop_accum support gSize cptr samples
      _ _ (dev0 k)) p)]
  simp only [Pi.add_apply, Finset.sum_apply, Finset.sum_add_distrib]
  rw [mindind_last (MAX_MIC + 1) (samples.length : Int) hn]
  ring

end PartitionLemmas

section FootprintLemmas

variable {K : Type} [CommRing K]

theorem cell_ne (gSize s : Int) (hs : s ≤ gSize) (u u0 v v0 : Nat) (hu : (u : Int) < s)
    (hu0 : (u0 : Int) < s) (hne : v ≠ v0) :
    gSize * (v : Int) + (u : Int) ≠ gSize * (v0 : Int) + (u0 : Int) := by
  intro h
  have hg : 0 ≤ gSize := by omega
  rcases Nat.lt_or_gt_of_ne hne with hlt | hgt
  · have h2 : gSize * ((v : Int) + 1) ≤ gSize * (v0 : Int) :=
      mul_le_mul_of_nonneg_left (by exact_mod_cast hlt) hg
    have h3 : gSize * ((v : Int) + 1) = gSize * (v : Int) + gSize := by ring
    omega
  · have h2 : gSize * ((v0 : Int) + 1) ≤ gSize * (v : Int) :=
      mul_le_mul_of_nonneg_left (by exact_mod_cast hgt) hg
    have h3 : gSize * ((v0 : Int) + 1) = gSize * (v0 : Int) + gSize := by ring
    omega

/-- Closed form of the code on one cell: when the kernel is no wider than the grid, the
sample adds the complex product of its data with `table[cOffset + du + sSize*dv]` to the flat
cell `(iu - support + du) + gSize*(iv + dv)`; the row index is `iv + dv`. -/
theorem gridSample_cell (support gSize : Int) (cptr : Int → K) (s : Sample K)
    (g : Int → K) (du dv : Nat) (hdu : (du : Int) < 2 * support + 1)
    (hdv : (dv : Int) < 2 * support + 1) (hw : 2 * support + 1 ≤ gSize) :
    gridSample support gSize cptr s g
        (2 * ((s.iu - support + (du : Int)) + gSize * (s.iv + (dv : Int))))
      = g (2 * ((s.iu - support + (du : Int)) + gSize * (s.iv + (dv : Int))))
        + (s.data.real * cptr (2 * (s.cOffset + (du : Int) + (2 * support + 1) * (dv : Int)))
          - s.data.imag
            * cptr (2 * (s.cOffset + (du : Int) + (2 * support + 1) * (dv : Int)) + 1))
    ∧ gridSample support gSize cptr s g
        (2 * ((s.iu - support + (du : Int)) + gSize * (s.iv + (dv : Int))) + 1)
      = g (2 * ((s.iu - support + (du : Int)) + gSize * (s.iv + (dv : Int))) + 1)
        + (s.data.real
            * cptr (2 * (s.cOffset + (du : Int) + (2 * support + 1) * (dv : Int)) + 1)
          + s.data.imag
            * cptr (2 * (s.cOffset + (du : Int) + (2 * support + 1) * (dv : Int)))) := by
  have key : ∀ (q : Int) (x : K),
      (∀ g2 : Int → K,
        addAt (addAt g2
            ((s.iu + gSize * s.iv - support + gSize * (dv : Int)) * 2 + 2 * (du : Int))
            (s.data.real * cptr ((s.cOffset + (2 * support + 1) * (dv : Int)) * 2
                + 2 * (du : Int))
              - s.data.imag * cptr ((s.cOffset + (2 * support + 1) * (dv : Int)) * 2
                + 2 * (du : Int) + 1)))
          ((s.iu + gSize * s.iv - support + gSize * (dv : Int)) * 2 + 2 * (du : Int) + 1)
          (s.data.real * cptr ((s.cOffset + (2 * support + 1) * (dv : Int)) * 2
                + 2 * (du : Int) + 1)
              + s.data.imag * cptr ((s.cOffset + (2 * support + 1) * (dv : Int)) * 2
                + 2 * (du : Int))) q = g2 q + x) →
      (q = (s.iu + gSize * s.iv - support + gSize * (dv : Int)) * 2 + 2 * (du : Int)
        ∨ q = (s.iu + gSize * s.iv - support + gSize * (dv : Int)) * 2 + 2 * (du : Int) + 1) →
      gridSample support gSize cptr s g q = g q + x := by
    intro q x hx hq
    unfold gridSample
    refine forLoop_obs_once (fun g : Int → K => g q) (fun y => y + x) _ _ g dv (by omega) ?_ ?_
    · intro g1
      refine forLoop_obs_once (fun g : Int → K => g q) (fun y => y + x) _ _ g1 du (by omega)
        ?_ ?_
      · intro g2
        exact hx g2
      · intro suppu hu hne g2
        simp only [addAt_apply]
        rw [if_neg (by rcases hq with h | h <;> omega),
          if_neg (by rcases hq with h | h <;> omega)]
    · intro suppv hv hne g1
      refine forLoop_obs_frame (fun g : Int → K => g q) _ _ g1 ?_
      intro suppu hu g2
      have hc := cell_ne gSize (2 * support + 1) hw suppu du suppv dv (by omega) hdu hne
      simp only [addAt_apply]
      rw [if_neg (by rcases hq with h | h <;> omega),
        if_neg (by rcases hq with h | h <;> omega)]
  have e1 : 2 * ((s.iu - support + (du : Int)) + gSize * (s.iv + (dv : Int)))
      = (s.iu + gSize * s.iv - support + gSize * (dv : Int)) * 2 + 2 * (du : Int) := by ring
  have e2 : 2 * (s.cOffset + (du : Int) + (2 * support + 1) * (dv : Int))
      = (s.cOffset + (2 * support + 1) * (dv : Int)) * 2 + 2 * (du : Int) := by ring
  rw [e1, e2]
  constructor
  · refine key _ _ ?_ (Or.inl rfl)
    intro g2
    rw [addAt_apply, if_neg (by omega), addAt_apply, if_pos rfl]
  · refine key _ _ ?_ (Or.inr rfl)
    intro g2
    rw [addAt_apply, if_pos rfl, addAt_apply, if_neg (by omega)]

end FootprintLemmas

/-! ## Theorems on `gridKernel` -/

section KernelTheorems

variable {K : Type} [CommRing K]

theorem mindind_mono_le (N : Nat) (n : Int) (hn : 0 ≤ n) (j k : Nat) (hjk : j ≤ k)
    (hk : k ≤ N) : mindind N n j ≤ mindind N n k := by
  induction k with
  | zero =>
    have : j = 0 := by omega
    subst this
    exact le_refl _
  | succ k ih =>
    by_cases hj : j = k + 1
    · subst hj
      exact le_refl _
    · exact le_trans (ih (by omega) (by omega)) (mindind_mono N n hn k (by omega))

/-- C1 (partition invariance): with `MAX_MIC` devices, whose private buffers start at zero
on the cells of the grid, every coordinate of the grid after the per-worker accumulation and
the reduction equals the one obtained by a single worker that accumulates all samples in
order into the shared grid; the same holds for the run without devices. -/
theorem gridKernel_partition_invariance (MAX_MIC : Nat) (support : Int) (cptr gptr : Int → K)
    (gridLen : Nat) (gSize : Int) (samples : List (Sample K)) (tmp : Int → K)
    (dev0 : Nat → Int → K)
    (hdev : ∀ imic, imic < MAX_MIC → ∀ p : Int, 0 ≤ p → p < (gridLen : Int) * 2 →
      dev0 imic p = 0)
    (p : Int) (hp0 : 0 ≤ p) (hpG : p < (gridLen : Int) * 2) :
    gridKernel MAX_MIC support cptr gptr gridLen gSize samples tmp dev0 p
        = singleWorker support gSize cptr samples gptr p
      ∧ gridKernel MAX_MIC support cptr gptr gridLen gSize samples tmp dev0 p
        = gridKernel 0 support cptr gptr gridLen gSize samples tmp dev0 p := by
  have h0 : ∑ k in Finset.range MAX_MIC, dev0 k p = 0 :=
    Finset.sum_eq_zero (fun k hk => hdev k (Finset.mem_range.mp hk) p hp0 hpG)
  rw [gridKernel_apply MAX_MIC support cptr gptr gridLen gSize samples tmp dev0 p hp0 hpG,
    gridKernel_apply 0 support cptr gptr gridLen gSize samples tmp dev0 p hp0 hpG, h0]
  simp

/-- Witness of C1: two devices and the host, three samples on an 8 x 8 grid. -/
theorem gridKernel_partition_invariance_witness :
    gridKernel 2 1 unitTable zeroGrid 64 8 [unitSample 3 3, unitSample 4 4, unitSample 2 3]
        (fun _ => 5) (fun _ _ => 0) 52
      = singleWorker 1 8 unitTable [unitSample 3 3, unitSample 4 4, unitSample 2 3]
        zeroGrid 52 :=
  (gridKernel_partition_invariance 2 1 unitTable zeroGrid 64 8
    [unitSample 3 3, unitSample 4 4, unitSample 2 3] (fun _ => 5) (fun _ _ => 0)
    (fun _ _ _ _ _ => rfl) 52 (by decide) (by decide)).1

/-- C9 (every sample contributes exactly once): for `n` samples and `MAX_MIC + 1` workers
the ranges `[mindind, maxdind)` start at 0, end at `n`, have lower bound at most upper bound,
each upper bound is the lower bound of the next range, every range lies inside `[0, n)`, and
every sample index belongs to exactly one range. -/
theorem sample_ranges_partition (MAX_MIC n : Nat) :
    mindind (MAX_MIC + 1) (n : Int) 0 = 0
      ∧ maxdind (MAX_MIC + 1) (n : Int) MAX_MIC = (n : Int)
      ∧ (∀ k, k < MAX_MIC + 1 →
          mindind (MAX_MIC + 1) (n : Int) k ≤ maxdind (MAX_MIC + 1) (n : Int) k)
      ∧ (∀ k, k + 1 < MAX_MIC + 1 →
          maxdind (MAX_MIC + 1) (n : Int) k = mindind (MAX_MIC + 1) (n : Int) (k + 1))
      ∧ (∀ k, k < MAX_MIC + 1 → ∀ d : Int, mindind (MAX_MIC + 1) (n : Int) k ≤ d →
          d < maxdind (MAX_MIC + 1) (n : Int) k → 0 ≤ d ∧ d < (n : Int))
      ∧ (∀ d : Int, 0 ≤ d → d < (n : Int) →
          ∃! k, k < MAX_MIC + 1 ∧ mindind (MAX_MIC + 1) (n : Int) k ≤ d
            ∧ d < maxdind (MAX_MIC + 1) (n : Int) k) := by
  have hn : (0 : Int) ≤ (n : Int) := Int.ofNat_nonneg n
  have hN : 0 < MAX_MIC + 1 := Nat.succ_pos _
  have hlast : mindind (MAX_MIC + 1) (n : Int) (MAX_MIC + 1) = (n : Int) :=
    mindind_last (MAX_MIC + 1) (n : Int) hn
  refine ⟨mindind_zero _ hN _, hlast, ?_, fun k _ => rfl, ?_, ?_⟩
  · intro k hk
    exact mindind_mono _ _ hn k hk
  · intro k hk d hlo hhi
    refine ⟨le_trans (mindind_nonneg _ _ hn k) hlo, lt_of_lt_of_le hhi ?_⟩
    have hle := mindind_mono_le (MAX_MIC + 1) (n : Int) hn (k + 1) (MAX_MIC + 1) (by omega)
      (le_refl _)
    rw [hlast] at hle
    exact hle
  · intro d hd0 hdn
    have hex : ∃ k, d < mindind (MAX_MIC + 1) (n : Int) (k + 1) :=
      ⟨MAX_MIC, by rw [hlast]; exact hdn⟩
    classical
    refine ⟨Nat.find hex, ⟨?_, ?_, Nat.find_spec hex⟩, ?_⟩
    · exact Nat.lt_succ_of_le (Nat.find_min' hex (by rw [hlast]; exact hdn))
    · cases hk : Nat.find hex with
      | zero => rw [mindind_zero _ hN]; exact hd0
      | succ j =>
        have hj : ¬ d < mindind (MAX_MIC + 1) (n : Int) (j + 1) :=
          Nat.find_min hex (by omega)
        exact not_lt.mp hj
    · rintro k ⟨hk, hlo, hhi⟩
      have hle : Nat.find hex ≤ k := Nat.find_min' hex hhi
      by_contra hne
      have hlt : Nat.find hex + 1 ≤ k := by omega
      have := mindind_mono_le (MAX_MIC + 1) (n : Int) hn (Nat.find hex + 1) k hlt (by omega)
      have := Nat.find_spec hex
      omega

/-- C2 (per-sample footprint), evaluation of the code: with `support = 1` and `gSize = 8`, a
sample at `iu = iv = 3` leaves cell `(2, 2)` (flat index 18, the corner the claim names)
untouched and adds its product to cell `(2, 3)` (flat index 26) and to cell `(4, 5)`
(flat index 44): the rows written are `iv .. iv + 2*support`. -/
theorem gridSample_footprint_eval :
    gridSample 1 8 unitTable (unitSample 3 3) zeroGrid (2 * 18) = 0
      ∧ gridSample 1 8 unitTable (unitSample 3 3) zeroGrid (2 * 26) = 1
      ∧ gridSample 1 8 unitTable (unitSample 3 3) zeroGrid (2 * 44) = 1 := by
  refine ⟨?_, ?_, ?_⟩ <;> decide

/-- C3 (boundary safety), evaluation of the code: with `gSize = 128` and `support = 3`, the
sample at `iu = iv = 124`, whose centred footprint ends at 127, changes the coordinate of
flat cell index 16767, which is beyond the last cell `128 * 128 - 1 = 16383`. -/
theorem gridSample_boundary_eval :
    gridSample 3 128 unitTable (unitSample 124 124) zeroGrid (2 * 16767) = 1
      ∧ ¬ ((16767 : Int) < 128 * 128) := by
  refine ⟨?_, ?_⟩ <;> decide

end KernelTheorems

/-! ## Theorems on `initCOffset` -/

section OffsetTheorems

variable {K : Type} [LinearOrderedField K] [FloorRing K]

theorem dind_ne (n i i0 chan chan0 : Nat) (hc : chan < n) (hc0 : chan0 < n) (hne : i ≠ i0) :
    i * n + chan ≠ i0 * n + chan0 := by
  intro h
  rcases Nat.lt_or_gt_of_ne hne with hlt | hgt
  · have := Nat.mul_le_mul_right n (Nat.succ_le_of_lt hlt)
    rw [Nat.succ_mul] at this
    omega
  · have := Nat.mul_le_mul_right n (Nat.succ_le_of_lt hgt)
    rw [Nat.succ_mul] at this
    omega

theorem floorIndex_eq_floor (x : K) : floorIndex x = ⌊x⌋ := by
  unfold floorIndex toInt
  by_cases hx : 0 ≤ x
  · simp only [if_pos hx]
    rw [if_neg (not_lt.mpr (Int.floor_le x))]
  · simp only [if_neg hx]
    by_cases hlt : x < ((⌈x⌉ : Int) : K)
    · rw [if_pos hlt]
      have h1 : ⌈x⌉ - 1 ≤ ⌊x⌋ := by
        have := Int.ceil_le_floor_add_one x
        omega
      have h2 : ⌊x⌋ < ⌈x⌉ := by
        have : ((⌊x⌋ : Int) : K) < ((⌈x⌉ : Int) : K) := lt_of_le_of_lt (Int.floor_le x) hlt
        exact_mod_cast this
      omega
    · rw [if_neg hlt]
      have hxe : x = ((⌈x⌉ : Int) : K) := le_antisymm (Int.le_ceil x) (not_lt.mp hlt)
      have : ⌊x⌋ = ⌈x⌉ := by
        conv_lhs => rw [hxe]
        exact Int.floor_intCast _
      omega

theorem initCOffset_getElem? (u v w freq : List K) (cellSize wCellSize : K)
    (wSize gSize support overSample : Int) (samples : List (Sample K)) (i chan : Nat)
    (hi : i < u.length) (hchan : chan < freq.length) :
    (initCOffset u v w freq cellSize wCellSize wSize gSize support overSample
        samples)[i * freq.length + chan]?
      = (samples[i * freq.length + chan]?).map
          (offsetRecord (freq.getD chan 0) (u.getD i 0) (v.getD i 0) (w.getD i 0) cellSize
            wCellSize wSize gSize support overSample) := by
  unfold initCOffset
  refine forLoop_obs_once (fun l : List (Sample K) => l[i * freq.length + chan]?) _
    u.length _ samples i hi ?_ ?_
  · intro t
    refine forLoop_obs_once (fun l : List (Sample K) => l[i * freq.length + chan]?) _
      freq.length _ t chan hchan ?_ ?_
    · intro t2
      simp only [List.getElem?_modify_eq, Option.map_eq_map]
    · intro j hj hne t2
      exact List.getElem?_modify_ne _ t2 (by omega)
  · intro j hj hne t
    refine forLoop_obs_frame (fun l : List (Sample K) => l[i * freq.length + chan]?)
      freq.length _ t ?_
    intro c hc t2
    exact List.getElem?_modify_ne _ t2 (dind_ne freq.length j i c chan hc hchan hne)

theorem toInt_toward_zero (x : K) :
    |((toInt x : Int) : K)| ≤ |x| ∧ |x - ((toInt x : Int) : K)| < 1 := by
  unfold toInt
  by_cases hx : 0 ≤ x
  · simp only [if_pos hx]
    have h1 : ((⌊x⌋ : Int) : K) ≤ x := Int.floor_le x
    have h2 : (0 : K) ≤ ((⌊x⌋ : Int) : K) := by exact_mod_cast Int.floor_nonneg.mpr hx
    have h3 : x < ((⌊x⌋ : Int) : K) + 1 := Int.lt_floor_add_one x
    rw [abs_of_nonneg h2, abs_of_nonneg hx, abs_of_nonneg (by linarith)]
    exact ⟨h1, by linarith⟩
  · simp only [if_neg hx]
    have hx0 : x < 0 := not_le.mp hx
    have h1 : x ≤ ((⌈x⌉ : Int) : K) := Int.le_ceil x
    have h2 : ((⌈x⌉ : Int) : K) ≤ 0 := by
      have : ⌈x⌉ ≤ 0 := Int.ceil_le.mpr (by simpa using hx0.le)
      exact_mod_cast this
    have h3 : ((⌈x⌉ : Int) : K) < x + 1 := Int.ceil_lt_add_one x
    rw [abs_of_nonpos h2, abs_of_neg hx0, abs_of_nonpos (by linarith)]
    exact ⟨by linarith, by linarith⟩

/-- C6 (table offset): for sample `i` and channel `chan`, the record of `initCOffset` at
index `i*nChan + chan` keeps its data and stores
`cOffset = sSize*sSize*(fracu + overSample*(fracv + overSample*wPlane))` with
`sSize = 2*support+1` and `wPlane = wSize/2 + int(wScaled)`, where `int` truncates toward
zero: its result is no larger in magnitude than its argument and less than 1 away from it. -/
theorem initCOffset_cOffset (u v w freq : List K) (cellSize wCellSize : K)
    (wSize gSize support overSample : Int) (samples : List (Sample K)) (i chan : Nat)
    (hi : i < u.length) (hchan : chan < freq.length)
    (hlen : i * freq.length + chan < samples.length) :
    ∃ s s0, (initCOffset u v w freq cellSize wCellSize wSize gSize support overSample
          samples)[i * freq.length + chan]? = some s
      ∧ samples[i * freq.length + chan]? = some s0 ∧ s.data = s0.data
      ∧ s.cOffset = (2 * support + 1) * (2 * support + 1)
          * (fracIndex overSample (freq.getD chan 0 * u.getD i 0 / cellSize)
            + overSample * (fracIndex overSample (freq.getD chan 0 * v.getD i 0 / cellSize)
              + overSample * wPlaneIndex wSize (freq.getD chan 0 * w.getD i 0 / wCellSize)))
      ∧ (∀ x : K, wPlaneIndex wSize x = wSize.tdiv 2 + toInt x
          ∧ toInt x = (if 0 ≤ x then ⌊x⌋ else ⌈x⌉)
          ∧ |((toInt x : Int) : K)| ≤ |x| ∧ |x - ((toInt x : Int) : K)| < 1) := by
  obtain ⟨s0, hs0⟩ : ∃ s0, samples[i * freq.length + chan]? = some s0 :=
    ⟨samples[i * freq.length + chan], List.getElem?_eq_getElem hlen⟩
  refine ⟨(offsetRecord (freq.getD chan 0) (u.getD i 0) (v.getD i 0) (w.getD i 0) cellSize
    wCellSize wSize gSize support overSample s0), s0, ?_, hs0, ?_, ?_, ?_⟩
  · rw [initCOffset_getElem? u v w freq cellSize wCellSize wSize gSize support overSample
      samples i chan hi hchan, hs0]
    rfl
  · rfl
  · rfl
  · intro x
    exact ⟨rfl, rfl, toInt_toward_zero x⟩

/-- Witness of C6: sample 1, channel 0 of the example, record index `1*2 + 0`. -/
theorem initCOffset_cOffset_witness :
    ∃ s, (initCOffset exU exV exW exFreq 1 1 4 16 1 8 exSamples)[1 * exFreq.length + 0]?
        = some s
      ∧ s.cOffset = (2 * 1 + 1) * (2 * 1 + 1)
          * (fracIndex 8 (exFreq.getD 0 0 * exU.getD 1 0 / 1)
            + 8 * (fracIndex 8 (exFreq.getD 0 0 * exV.getD 1 0 / 1)
              + 8 * wPlaneIndex 4 (exFreq.getD 0 0 * exW.getD 1 0 / 1))) := by
  obtain ⟨s, _, h1, _, _, h4, _⟩ := initCOffset_cOffset exU exV exW exFreq 1 1 4 16 1 8
    exSamples 1 0 (by decide) (by decide) (by decide)
  exact ⟨s, h1, h4⟩

end OffsetTheorems

/-! ## Theorems on `initC` -/

section TableLemmas

variable {K : Type} [LinearOrderedField K]

theorem radix_bound (A a b Bd : Int) (ha0 : 0 ≤ a) (ha : a < A) (hb0 : 0 ≤ b) (hb : b < Bd) :
    0 ≤ A * b + a ∧ A * b + a < A * Bd := by
  have hA : 0 ≤ A := by omega
  have h1 : 0 ≤ A * b := mul_nonneg hA hb0
  have h2 : A * (b + 1) ≤ A * Bd := mul_le_mul_of_nonneg_left (by omega) hA
  have h3 : A * (b + 1) = A * b + A := by ring
  constructor <;> omega

theorem block_sub (B L : Int) (hL : 0 ≤ L) (n j : Nat) (hj : j < n) (p : Int)
    (hp : B + L * (j : Int) ≤ p ∧ p < B + L * (j : Int) + L) :
    B ≤ p ∧ p < B + L * (n : Int) := by
  have h1 : 0 ≤ L * (j : Int) := mul_nonneg hL (Int.ofNat_nonneg j)
  have h2 : L * ((j : Int) + 1) ≤ L * (n : Int) :=
    mul_le_mul_of_nonneg_left (by exact_mod_cast hj) hL
  have h3 : L * ((j : Int) + 1) = L * (j : Int) + L := by ring
  constructor <;> omega

theorem block_disjoint (B L : Int) (hL : 0 ≤ L) (j j0 : Nat) (hne : j ≠ j0) (p : Int)
    (hp : B + L * (j0 : Int) ≤ p ∧ p < B + L * (j0 : Int) + L) :
    ¬ (B + L * (j : Int) ≤ p ∧ p < B + L * (j : Int) + L) := by
  intro hq
  rcases Nat.lt_or_gt_of_ne hne with hlt | hgt
  · have h2 : L * ((j : Int) + 1) ≤ L * (j0 : Int) :=
      mul_le_mul_of_nonneg_left (by exact_mod_cast hlt) hL
    have h3 : L * ((j : Int) + 1) = L * (j : Int) + L := by ring
    omega
  · have h2 : L * ((j0 : Int) + 1) ≤ L * (j : Int) :=
      mul_le_mul_of_nonneg_left (by exact_mod_cast hgt) hL
    have h3 : L * ((j0 : Int) + 1) = L * (j0 : Int) + L := by ring
    omega

theorem block_forLoop_frame {V : Type} (n : Nat) (body : Nat → (Int → V) → (Int → V))
    (B L : Int) (hL : 0 ≤ L)
    (h : ∀ j, j < n → ∀ C p, ¬ (B + L * (j : Int) ≤ p ∧ p < B + L * (j : Int) + L) →
      body j C p = C p)
    (C : Int → V) (p : Int) (hp : ¬ (B ≤ p ∧ p < B + L * (n : Int))) :
    forLoop n body C p = C p :=
  forLoop_obs_frame (fun C : Int → V => C p) n body C
    (fun j hj t => h j hj t p (fun hq => hp (block_sub B L hL n j hj p hq)))

theorem block_forLoop_target {V : Type} (n : Nat) (body : Nat → (Int → V) → (Int → V))
    (B L : Int) (hL : 0 ≤ L)
    (h : ∀ j, j < n → ∀ C p, ¬ (B + L * (j : Int) ≤ p ∧ p < B + L * (j : Int) + L) →
      body j C p = C p)
    (j0 : Nat) (hj0 : j0 < n) (p : Int)
    (hp : B + L * (j0 : Int) ≤ p ∧ p < B + L * (j0 : Int) + L) (v : V)
    (hv : ∀ C, body j0 C p = v) (C : Int → V) :
    forLoop n body C p = v :=
  forLoop_obs_once (fun C : Int → V => C p) (fun _ => v) n body C j0 hj0 hv
    (fun j hj hne t => h j hj t p (block_disjoint B L hL j j0 hne p hp))

theorem cindex_eq (s os i j osi osj k : Int) :
    cindex s os i j osi osj k
      = s * s * os * os * k + s * s * os * osj + s * s * osi + s * j + 1 * i := by
  unfold cindex
  ring

theorem fillRow_frame (M : CMath K) (s os cCenter : Int) (w fScale : K) (k osj osi j : Nat)
    (hs : 0 ≤ s) (C : Int → Value K) (p : Int)
    (hp : ¬ (s * s * os * os * (k : Int) + s * s * os * (osj : Int) + s * s * (osi : Int)
          + s * (j : Int) ≤ p
        ∧ p < s * s * os * os * (k : Int) + s * s * os * (osj : Int) + s * s * (osi : Int)
          + s * (j : Int) + s)) :
    fillRow M s os cCenter w fScale k osj osi j C p = C p := by
  unfold fillRow
  refine block_forLoop_frame s.toNat _ (s * s * os * os * (k : Int) + s * s * os * (osj : Int)
    + s * s * (osi : Int) + s * (j : Int)) 1 (by norm_num) ?_ C p ?_
  · intro i _ C q hq
    rw [cindex_eq]
    exact Function.update_noteq (fun e => hq (by rw [e]; constructor <;> omega)) _ _
  · rw [Int.toNat_of_nonneg hs, one_mul]
    exact hp

theorem fillRow_target (M : CMath K) (s os cCenter : Int) (w fScale : K) (k osj osi j : Nat)
    (i0 : Nat) (hi0 : (i0 : Int) < s) (C : Int → Value K) :
    fillRow M s os cCenter w fScale k osj osi j C (cindex s os i0 j osi osj k)
      = cEntry M cCenter os w fScale osj osi j i0 := by
  unfold fillRow
  refine block_forLoop_target s.toNat _ (s * s * os * os * (k : Int) + s * s * os * (osj : Int)
    + s * s * (osi : Int) + s * (j : Int)) 1 (by norm_num) ?_ i0 (by omega) _ ?_ _ ?_ C
  · intro i _ C q hq
    rw [cindex_eq]
    exact Function.update_noteq (fun e => hq (by rw [e]; constructor <;> omega)) _ _
  · rw [cindex_eq]
    constructor <;> omega
  · intro C
    exact Function.update_same _ _ _

theorem fillKernel_frame (M : CMath K) (s os cCenter : Int) (w fScale : K) (k osj osi : Nat)
    (hs : 0 ≤ s) (C : Int → Value K) (p : Int)
    (hp : ¬ (s * s * os * os * (k : Int) + s * s * os * (osj : Int) + s * s * (osi : Int) ≤ p
        ∧ p < s * s * os * os * (k : Int) + s * s * os * (osj : Int) + s * s * (osi : Int)
          + s * s)) :
    fillKernel M s os cCenter w fScale k osj osi C p = C p := by
  unfold fillKernel
  refine block_forLoop_frame s.toNat _ (s * s * os * os * (k : Int) + s * s * os * (osj : Int)
    + s * s * (osi : Int)) s hs ?_ C p ?_
  · intro j _ C q hq
    exact fillRow_frame M s os cCenter w fScale k osj osi j hs C q hq
  · rw [Int.toNat_of_nonneg hs]
    exact hp

theorem fillKernel_target (M : CMath K) (s os cCenter : Int) (w fScale : K) (k osj osi : Nat)
    (j0 i0 : Nat) (hj0 : (j0 : Int) < s) (hi0 : (i0 : Int) < s) (C : Int → Value K) :
    fillKernel M s os cCenter w fScale k osj osi C (cindex s os i0 j0 osi osj k)
      = cEntry M cCenter os w fScale osj osi j0 i0 := by
  have hs : 0 ≤ s := by omega
  unfold fillKernel
  refine block_forLoop_target s.toNat _ (s * s * os * os * (k : Int) + s * s * os * (osj : Int)
    + s * s * (osi : Int)) s hs ?_ j0 (by omega) _ ?_ _ ?_ C
  · intro j _ C q hq
    exact fillRow_frame M s os cCenter w fScale k osj osi j hs C q hq
  · rw [cindex_eq]
    constructor <;> omega
  · intro C
    exact fillRow_target M s os cCenter w fScale k osj osi j0 i0 hi0 C

theorem fillOsi_frame (M : CMath K) (s os cCenter : Int) (w fScale : K) (k osj : Nat)
    (hs : 0 ≤ s) (ho : 0 ≤ os) (C : Int → Value K) (p : Int)
    (hp : ¬ (s * s * os * os * (k : Int) + s * s * os * (osj : Int) ≤ p
        ∧ p < s * s * os * os * (k : Int) + s * s * os * (osj : Int) + s * s * os)) :
    fillOsi M s os cCenter w fScale k osj C p = C p := by
  unfold fillOsi
  refine block_forLoop_frame os.toNat _ (s * s * os * os * (k : Int) + s * s * os * (osj : Int))
    (s * s) (mul_nonneg hs hs) ?_ C p ?_
  · intro osi _ C q hq
    exact fillKernel_frame M s os cCenter w fScale k osj osi hs C q hq
  · rw [Int.toNat_of_nonneg ho]
    exact hp

theorem fillOsi_target (M : CMath K) (s os cCenter : Int) (w fScale : K) (k osj : Nat)
    (osi0 j0 i0 : Nat) (hosi0 : (osi0 : Int) < os) (hj0 : (j0 : Int) < s)
    (hi0 : (i0 : Int) < s) (C : Int → Value K) :
    fillOsi M s os cCenter w fScale k osj C (cindex s os i0 j0 osi0 osj k)
      = cEntry M cCenter os w fScale osj osi0 j0 i0 := by
  have hs : 0 ≤ s := by omega
  have ho : 0 ≤ os := by omega
  have hb := radix_bound s i0 j0 s (Int.ofNat_nonneg _) hi0 (Int.ofNat_nonneg _) hj0
  unfold fillOsi
  refine block_forLoop_target os.toNat _
    (s * s * os * os * (k : Int) + s * s * os * (osj : Int))
    (s * s) (mul_nonneg hs hs) ?_ osi0 (by omega) _ ?_ _ ?_ C
  · intro osi _ C q hq
    exact fillKernel_frame M s os cCenter w fScale k osj osi hs C q hq
  · rw [cindex_eq]
    constructor <;> omega
  · intro C
    exact fillKernel_target M s os cCenter w fScale k osj osi0 j0 i0 hj0 hi0 C

theorem fillPlane_frame (M : CMath K) (s os cCenter : Int) (w fScale : K) (k : Nat)
    (hs : 0 ≤ s) (ho : 0 ≤ os) (C : Int → Value K) (p : Int)
    (hp : ¬ (0 + s * s * os * os * (k : Int) ≤ p
        ∧ p < 0 + s * s * os * os * (k : Int) + s * s * os * os)) :
    fillPlane M s os cCenter w fScale k C p = C p := by
  unfold fillPlane
  refine block_forLoop_frame os.toNat _ (s * s * os * os * (k : Int))
    (s * s * os) (mul_nonneg (mul_nonneg hs hs) ho) ?_ C p ?_
  · intro osj _ C q hq
    exact fillOsi_frame M s os cCenter w fScale k osj hs ho C q hq
  · rw [Int.toNat_of_nonneg ho]
    intro hq
    exact hp ⟨by omega, by omega⟩

theorem fillPlane_target (M : CMath K) (s os cCenter : Int) (w fScale : K) (k : Nat)
    (osj0 osi0 j0 i0 : Nat) (hosj0 : (osj0 : Int) < os) (hosi0 : (osi0 : Int) < os)
    (hj0 : (j0 : Int) < s) (hi0 : (i0 : Int) < s) (C : Int → Value K) :
    fillPlane M s os cCenter w fScale k C (cindex s os i0 j0 osi0 osj0 k)
      = cEntry M cCenter os w fScale osj0 osi0 j0 i0 := by
  have hs : 0 ≤ s := by omega
  have ho : 0 ≤ os := by omega
  have hb := radix_bound s i0 j0 s (Int.ofNat_nonneg _) hi0 (Int.ofNat_nonneg _) hj0
  have hb2 := radix_bound (s * s) (s * j0 + i0) osi0 os hb.1 hb.2 (Int.ofNat_nonneg _) hosi0
  unfold fillPlane
  refine block_forLoop_target os.toNat _ (s * s * os * os * (k : Int))
    (s * s * os) (mul_nonneg (mul_nonneg hs hs) ho) ?_ osj0 (by omega) _ ?_ _ ?_ C
  · intro osj _ C q hq
    exact fillOsi_frame M s os cCenter w fScale k osj hs ho C q hq
  · rw [cindex_eq]
    constructor <;> omega
  · intro C
    exact fillOsi_target M s os cCenter w fScale k osj0 osi0 j0 i0 hosi0 hj0 hi0 C

theorem cindex_bound (s os : Int) (k osj osi j i : Nat) (hosj : (osj : Int) < os)
    (hosi : (osi : Int) < os) (hj : (j : Int) < s) (hi : (i : Int) < s) :
    0 + s * s * os * os * (k : Int) ≤ cindex s os i j osi osj k
      ∧ cindex s os i j osi osj k < 0 + s * s * os * os * (k : Int) + s * s * os * os := by
  have hb := radix_bound s i j s (Int.ofNat_nonneg _) hi (Int.ofNat_nonneg _) hj
  have hb2 := radix_bound (s * s) (s * j + i) osi os hb.1 hb.2 (Int.ofNat_nonneg _) hosi
  have hb3 := radix_bound (s * s * os) (s * s * osi + (s * j + i)) osj os hb2.1 hb2.2
    (Int.ofNat_nonneg _) hosj
  rw [cindex_eq]
  constructor <;> omega

theorem fillC_target (M : CMath K) (freq : List K) (cellSize : K)
    (wSize support os : Int) (wCellSize : K) (k0 osj0 osi0 j0 i0 : Nat)
    (hk0 : (k0 : Int) < wSize) (hosj0 : (osj0 : Int) < os) (hosi0 : (osi0 : Int) < os)
    (hj0 : (j0 : Int) < 2 * support + 1) (hi0 : (i0 : Int) < 2 * support + 1)
    (C : Int → Value K) :
    fillC M freq cellSize wSize support os wCellSize C
        (cindex (2 * support + 1) os i0 j0 osi0 osj0 k0)
      = cEntry M ((2 * support + 1 - 1).tdiv 2) os (planeW wSize k0)
          (planeFScale M freq cellSize wCellSize (planeW wSize k0)) osj0 osi0 j0 i0 := by
  have hs : 0 ≤ 2 * support + 1 := by omega
  have ho : 0 ≤ os := by omega
  have hL : 0 ≤ (2 * support + 1) * (2 * support + 1) * os * os :=
    mul_nonneg (mul_nonneg (mul_nonneg hs hs) ho) ho
  unfold fillC
  refine block_forLoop_target wSize.toNat _ 0
    ((2 * support + 1) * (2 * support + 1) * os * os) hL ?_ k0 (by omega) _
    (cindex_bound _ _ k0 osj0 osi0 j0 i0 hosj0 hosi0 hj0 hi0) _ ?_ C
  · intro k _ C q hq
    exact fillPlane_frame M _ os _ _ _ k hs ho C q hq
  · intro C
    exact fillPlane_target M _ os _ _ _ k0 osj0 osi0 j0 i0 hosj0 hosi0 hj0 hi0 C

end TableLemmas

section InitCTheorems

variable {K : Type} [LinearOrderedField K] [FloorRing K]

theorem cCenter_eq (support : Int) : (2 * support + 1 - 1).tdiv 2 = support := by
  rw [show 2 * support + 1 - 1 = 2 * support by ring]
  exact Int.mul_tdiv_cancel_left support (by norm_num)

/-- C8 (unnormalised table values): for a plane `k < wSize`, oversample offsets
`osi, osj < 8` and a kernel pixel `i, j < 2*support+1`, the table of `initC` before
normalisation holds, at the index of `(i, j, osi, osj, k)`, the value `cos(r2/(w*fScale))`
when `w ≠ 0` and `exp(-r2)` when `w = 0`, with imaginary part zero, where
`w = k - wSize/2`, the centre is `support`, `r2 = (j - support + osj/8)^2
+ (i - support + osi/8)^2`, `fScale = sqrt(|w| * wCellSize * freq[0]) / cellSize` and
`wCellSize = 2*baseline*freq[0]/wSize`; and `initC` returns `overSample = 8`. -/
theorem initC_table_entry (M : CMath K) (baseline : K) (freq : List K) (cellSize : K)
    (wSize : Int) (C0 : Int → Value K) (k osj osi j i : Nat)
    (hk : (k : Int) < wSize) (hosj : osj < 8) (hosi : osi < 8)
    (hj : (j : Int) < 2 * (initC M baseline freq cellSize wSize C0).support + 1)
    (hi : (i : Int) < 2 * (initC M baseline freq cellSize wSize C0).support + 1) :
    let support : Int := (initC M baseline freq cellSize wSize C0).support
    let wCellSize : K := (initC M baseline freq cellSize wSize C0).wCellSize
    let w : K := (((k : Int) - wSize.tdiv 2 : Int) : K)
    let r2 : K := ((((j : Int) - support : Int) : K) + (osj : K) / 8) ^ 2
      + ((((i : Int) - support : Int) : K) + (osi : K) / 8) ^ 2
    let fScale : K := M.sqrt (|w| * wCellSize * freq.getD 0 0) / cellSize
    initCTable M baseline freq cellSize wSize C0 (cindex (2 * support + 1) 8 i j osi osj k)
        = (if w ≠ 0 then Value.mk (M.cos (r2 / (w * fScale))) 0
          else Value.mk (M.exp (-r2)) 0)
      ∧ (initC M baseline freq cellSize wSize C0).overSample = 8
      ∧ wCellSize = 2 * baseline * freq.getD 0 0 / (wSize : K) := by
  intro support wCellSize w r2 fScale
  refine ⟨?_, rfl, rfl⟩
  have hsup : support = initSupport M baseline freq cellSize := rfl
  have hwc : wCellSize = initWCellSize baseline freq wSize := rfl
  have hj2 : (j : Int) < 2 * initSupport M baseline freq cellSize + 1 := hj
  have hi2 : (i : Int) < 2 * initSupport M baseline freq cellSize + 1 := hi
  simp only [fScale, r2, w, hsup, hwc, initCTable]
  rw [fillC_target M freq cellSize wSize (initSupport M baseline freq cellSize) 8
    (initWCellSize baseline freq wSize) k osj osi j i hk (by exact_mod_cast hosj)
    (by exact_mod_cast hosi) hj2 hi2 C0, cCenter_eq]
  simp only [cEntry, planeW, planeFScale, Value.ofCoord, Int.cast_natCast, Int.cast_ofNat]

end InitCTheorems

section RealTheorems

theorem real_abs_nonneg (z : Value ℝ) :
    0 ≤ Value.abs (CMath.mk Real.sqrt Real.cos Real.exp) z :=
  Real.sqrt_nonneg _

theorem real_abs_ofCoord (x : ℝ) :
    Value.abs (CMath.mk Real.sqrt Real.cos Real.exp) (Value.ofCoord x) = |x| := by
  simp only [Value.abs, Value.ofCoord, mul_zero, add_zero]
  exact Real.sqrt_mul_self_eq_abs x

theorem real_abs_mul (z : Value ℝ) (x : ℝ) (hx : 0 ≤ x) :
    Value.abs (CMath.mk Real.sqrt Real.cos Real.exp) (Value.mul z (Value.ofCoord x))
      = Value.abs (CMath.mk Real.sqrt Real.cos Real.exp) z * x := by
  simp only [Value.abs, Value.mul, Value.ofCoord]
  have e : (z.real * x - z.imag * 0) * (z.real * x - z.imag * 0)
      + (z.real * 0 + z.imag * x) * (z.real * 0 + z.imag * x)
      = (z.real * z.real + z.imag * z.imag) * (x * x) := by ring
  rw [e, Real.sqrt_mul (by nlinarith [mul_self_nonneg z.real, mul_self_nonneg z.imag]),
    Real.sqrt_mul_self hx]

theorem sumAbs_eq_sum {K : Type} [LinearOrderedField K] (M : CMath K) (C : Int → Value K)
    (n : Nat) : sumAbs M C n = ∑ i in Finset.range n, Value.abs M (C (i : Int)) := by
  unfold sumAbs
  induction n with
  | zero => simp [forLoop]
  | succ n ih =>
    simp only [forLoop]
    rw [ih, Finset.sum_range_succ]

theorem scaleC_apply {K : Type} [LinearOrderedField K] (C : Int → Value K) (n : Nat) (x : K)
    (i : Nat) (hi : i < n) :
    scaleC C n x (i : Int) = Value.mul (C (i : Int)) (Value.ofCoord x) := by
  unfold scaleC
  refine forLoop_obs_once (fun C : Int → Value K => C (i : Int))
    (fun z => Value.mul z (Value.ofCoord x)) n _ C i hi ?_ ?_
  · intro t
    exact Function.update_same _ _ _
  · intro j _ hne t
    exact Function.update_noteq (by exact_mod_cast (Ne.symm hne)) _ _

theorem initSupport_real (baseline : ℝ) (freq : List ℝ) (cellSize : ℝ) (hc : 0 < cellSize) :
    initSupport (CMath.mk Real.sqrt Real.cos Real.exp) baseline freq cellSize
      = ⌊3 / 2 * Real.sqrt (|baseline| * cellSize * freq.getD 0 0) / cellSize⌋
      ∧ 0 ≤ initSupport (CMath.mk Real.sqrt Real.cos Real.exp) baseline freq cellSize := by
  have h : 0 ≤ 3 / 2 * Real.sqrt (|baseline| * cellSize * freq.getD 0 0) / cellSize :=
    div_nonneg (mul_nonneg (by norm_num) (Real.sqrt_nonneg _)) hc.le
  unfold initSupport
  rw [toInt_of_nonneg h]
  exact ⟨rfl, Int.floor_nonneg.mpr h⟩

theorem zero_plane (wSize : Int) (hw : 1 ≤ wSize) :
    ((wSize.tdiv 2).toNat : Int) = wSize.tdiv 2 ∧ ((wSize.tdiv 2).toNat : Int) < wSize := by
  have h : wSize.tdiv 2 = wSize / 2 := Int.tdiv_eq_ediv (by omega) (by norm_num)
  rw [h]
  constructor <;> omega

theorem initCTable_zero_plane (baseline : ℝ) (freq : List ℝ) (cellSize : ℝ) (wSize : Int)
    (C0 : Int → Value ℝ) (hw : 1 ≤ wSize) (hc : 0 < cellSize) :
    ∃ i0 : Nat,
      (i0 : Int) < tableSize
        (initSupport (CMath.mk Real.sqrt Real.cos Real.exp) baseline freq cellSize) 8 wSize
      ∧ 0 < Value.abs (CMath.mk Real.sqrt Real.cos Real.exp)
          (initCTable (CMath.mk Real.sqrt Real.cos Real.exp) baseline freq cellSize wSize C0
            (i0 : Int)) := by
  obtain ⟨hk1, hk2⟩ := zero_plane wSize hw
  obtain ⟨_, hsup⟩ := initSupport_real baseline freq cellSize hc
  generalize hS : initSupport (CMath.mk Real.sqrt Real.cos Real.exp) baseline freq cellSize
    = support at hsup
  generalize (wSize.tdiv 2).toNat = k0 at hk1 hk2
  have hpos : (((0 : Nat) : Int)) < 2 * support + 1 := by simp; omega
  have hs : 0 ≤ 2 * support + 1 := by omega
  have hL : 0 ≤ (2 * support + 1) * (2 * support + 1) * 8 * 8 := by positivity
  have hb := cindex_bound (2 * support + 1) 8 k0 0 0 0 0 (by norm_num)
    (by norm_num) hpos hpos
  have hb2 := block_sub 0 ((2 * support + 1) * (2 * support + 1) * 8 * 8) hL wSize.toNat
    k0 (by omega) _ hb
  have hwN : (wSize.toNat : Int) = wSize := Int.toNat_of_nonneg (by omega)
  rw [hwN, zero_add] at hb2
  have hcast : (((cindex (2 * support + 1) 8 (0 : Nat) (0 : Nat) (0 : Nat) (0 : Nat)
      (k0 : Int)).toNat : Nat) : Int)
      = cindex (2 * support + 1) 8 (0 : Nat) (0 : Nat) (0 : Nat) (0 : Nat) (k0 : Int) :=
    Int.toNat_of_nonneg hb2.1
  refine ⟨(cindex (2 * support + 1) 8 (0 : Nat) (0 : Nat) (0 : Nat) (0 : Nat)
    (k0 : Int)).toNat, ?_, ?_⟩
  · rw [hcast]
    exact hb2.2
  · rw [hcast]
    unfold initCTable
    rw [hS, fillC_target (CMath.mk Real.sqrt Real.cos Real.exp) freq cellSize wSize support 8
      (initWCellSize baseline freq wSize) k0 0 0 0 0 hk2 (by norm_num)
      (by norm_num) hpos hpos C0]
    have hw0 : planeW wSize k0 = (0 : ℝ) := by
      unfold planeW
      rw [hk1, sub_self, Int.cast_zero]
    unfold cEntry
    simp only [hw0, ne_eq, not_true_eq_false, if_false]
    rw [real_abs_ofCoord, abs_of_pos (Real.exp_pos _)]
    exact Real.exp_pos _

/-- C4 (normalisation invariant): for `wSize ≥ 1` and positive baseline, cell size and
`freq[0]`, over the real numbers, the sum `sumC` of the magnitudes of the table before
normalisation is strictly positive, and after `initC` the magnitudes of all
`sSize*sSize*overSample*overSample*wSize` table entries sum to `wSize * overSample^2`. -/
theorem initC_normalised (baseline : ℝ) (freq : List ℝ) (cellSize : ℝ) (wSize : Int)
    (C0 : Int → Value ℝ) (hw : 1 ≤ wSize) (hb : 0 < baseline) (hc : 0 < cellSize)
    (hf : 0 < freq.getD 0 0) :
    let M : CMath ℝ := CMath.mk Real.sqrt Real.cos Real.exp
    let r : InitCOut ℝ := initC M baseline freq cellSize wSize C0
    let n : Nat := (tableSize r.support r.overSample wSize).toNat
    0 < r.wCellSize
      ∧ 0 < sumAbs M (initCTable M baseline freq cellSize wSize C0) n
      ∧ ∑ i in Finset.range n, Value.abs M (r.C (i : Int))
          = (wSize : ℝ) * (r.overSample : ℝ) ^ 2 := by
  intro M r n
  have hwR : (0 : ℝ) < (wSize : ℝ) := by exact_mod_cast (by omega : (0 : Int) < wSize)
  have hsum : 0 < sumAbs M (initCTable M baseline freq cellSize wSize C0) n := by
    obtain ⟨i0, hi0, hpos⟩ := initCTable_zero_plane baseline freq cellSize wSize C0 hw hc
    rw [sumAbs_eq_sum]
    have hmem : i0 ∈ Finset.range n := by
      rw [Finset.mem_range]
      have : (i0 : Int) < tableSize r.support r.overSample wSize := hi0
      omega
    exact lt_of_lt_of_le hpos
      (Finset.single_le_sum (f := fun i : Nat => Value.abs M
        (initCTable M baseline freq cellSize wSize C0 (i : Int)))
        (fun i _ => real_abs_nonneg _) hmem)
  refine ⟨?_, hsum, ?_⟩
  · show 0 < initWCellSize baseline freq wSize
    unfold initWCellSize
    positivity
  · have hx : 0 ≤ (((wSize * 8 * 8 : Int)) : ℝ)
        / sumAbs M (initCTable M baseline freq cellSize wSize C0) n :=
      div_nonneg (by push_cast; positivity) hsum.le
    have hC : ∀ i ∈ Finset.range n, Value.abs M (r.C (i : Int))
        = Value.abs M (initCTable M baseline freq cellSize wSize C0 (i : Int))
          * ((((wSize * 8 * 8 : Int)) : ℝ)
            / sumAbs M (initCTable M baseline freq cellSize wSize C0) n) := by
      intro i hi
      have e : r.C (i : Int) = Value.mul (initCTable M baseline freq cellSize wSize C0 (i : Int))
          (Value.ofCoord ((((wSize * 8 * 8 : Int)) : ℝ)
            / sumAbs M (initCTable M baseline freq cellSize wSize C0) n)) :=
        scaleC_apply _ n _ i (Finset.mem_range.mp hi)
      rw [e]
      exact real_abs_mul _ _ hx
    rw [Finset.sum_congr rfl hC, ← Finset.sum_mul, ← sumAbs_eq_sum]
    show _ = (wSize : ℝ) * (((8 : Int)) : ℝ) ^ 2
    push_cast
    field_simp
    ring

/-- Witness of C4: one w-plane, unit baseline, cell size and frequency. -/
theorem initC_normalised_witness :
    let M : CMath ℝ := CMath.mk Real.sqrt Real.cos Real.exp
    let r : InitCOut ℝ := initC M 1 [1] 1 1 (zeroTable ℝ)
    let n : Nat := (tableSize r.support r.overSample 1).toNat
    0 < r.wCellSize
      ∧ 0 < sumAbs M (initCTable M 1 [1] 1 1 (zeroTable ℝ)) n
      ∧ ∑ i in Finset.range n, Value.abs M (r.C (i : Int))
          = ((1 : Int) : ℝ) * (r.overSample : ℝ) ^ 2 :=
  initC_normalised 1 [1] 1 1 (zeroTable ℝ) (le_refl 1) one_pos one_pos (by simp)

theorem real_support_pixel (baseline : ℝ) (freq : List ℝ) (cellSize : ℝ) (wSize : Int)
    (C0 : Int → Value ℝ) (hc : 0 < cellSize) :
    ((0 : Nat) : Int)
      < 2 * (initC (CMath.mk Real.sqrt Real.cos Real.exp) baseline freq cellSize wSize
          C0).support + 1 := by
  have h := (initSupport_real baseline freq cellSize hc).2
  show ((0 : Nat) : Int) < 2 * initSupport _ baseline freq cellSize + 1
  simp only [Nat.cast_zero]
  omega

/-- Witness of C8: three w-planes, the centre plane `k = 1`, oversample offsets `(2, 3)` and
the first kernel pixel, over the real numbers. -/
theorem initC_table_entry_witness :
    let M : CMath ℝ := CMath.mk Real.sqrt Real.cos Real.exp
    let support : Int := (initC M 1 [1] 1 3 (zeroTable ℝ)).support
    let wCellSize : ℝ := (initC M 1 [1] 1 3 (zeroTable ℝ)).wCellSize
    let w : ℝ := ((((1 : Nat) : Int) - (3 : Int).tdiv 2 : Int) : ℝ)
    let r2 : ℝ := (((((0 : Nat) : Int) - support : Int) : ℝ) + ((3 : Nat) : ℝ) / 8) ^ 2
      + (((((0 : Nat) : Int) - support : Int) : ℝ) + ((2 : Nat) : ℝ) / 8) ^ 2
    let fScale : ℝ := M.sqrt (|w| * wCellSize * ([1] : List ℝ).getD 0 0) / 1
    initCTable M 1 [1] 1 3 (zeroTable ℝ)
        (cindex (2 * support + 1) 8 (0 : Nat) (0 : Nat) (2 : Nat) (3 : Nat) (1 : Nat))
        = (if w ≠ 0 then Value.mk (M.cos (r2 / (w * fScale))) 0
          else Value.mk (M.exp (-r2)) 0)
      ∧ (initC M 1 [1] 1 3 (zeroTable ℝ)).overSample = 8
      ∧ wCellSize = 2 * 1 * ([1] : List ℝ).getD 0 0 / ((3 : Int) : ℝ) :=
  initC_table_entry (CMath.mk Real.sqrt Real.cos Real.exp) 1 [1] 1 3 (zeroTable ℝ) 1 3 2 0 0
    (by norm_num) (by norm_num) (by norm_num)
    (real_support_pixel 1 [1] 1 3 (zeroTable ℝ) one_pos)
    (real_support_pixel 1 [1] 1 3 (zeroTable ℝ) one_pos)

theorem sqrt_36_25 : Real.sqrt (36 / 25) = 6 / 5 := by
  rw [show (36 / 25 : ℝ) = (6 / 5) * (6 / 5) by norm_num]
  exact Real.sqrt_mul_self (by norm_num)

/-- C7, counterexample: for `baseline = 36/25`, `cellSize = 1`, `freq[0] = 1` the value
`1.5 * sqrt(|baseline| * cellSize * freq[0]) / cellSize` is `9/5`; `initC` returns the
support 1, whereas the nearest integer is 2. -/
theorem initC_support_not_rounded :
    (initC (CMath.mk Real.sqrt Real.cos Real.exp) (36 / 25) [1] 1 1 (zeroTable ℝ)).support = 1
      ∧ round (3 / 2 * Real.sqrt (|(36 / 25 : ℝ)| * 1 * ([1] : List ℝ).getD 0 0) / 1) = 2
      ∧ (initC (CMath.mk Real.sqrt Real.cos Real.exp) (36 / 25) [1] 1 1 (zeroTable ℝ)).support
        ≠ round (3 / 2 * Real.sqrt (|(36 / 25 : ℝ)| * 1 * ([1] : List ℝ).getD 0 0) / 1) := by
  have hv : 3 / 2 * Real.sqrt (|(36 / 25 : ℝ)| * 1 * ([1] : List ℝ).getD 0 0) / 1 = 9 / 5 := by
    have : |(36 / 25 : ℝ)| * 1 * ([1] : List ℝ).getD 0 0 = 36 / 25 := by
      rw [abs_of_pos (by norm_num)]
      simp
    rw [this, sqrt_36_25]
    norm_num
  have h1 : (initC (CMath.mk Real.sqrt Real.cos Real.exp) (36 / 25) [1] 1 1
      (zeroTable ℝ)).support = 1 := by
    show initSupport (CMath.mk Real.sqrt Real.cos Real.exp) (36 / 25) [1] 1 = 1
    rw [(initSupport_real (36 / 25) [1] 1 one_pos).1, hv, Int.floor_eq_iff]
    constructor <;> norm_num
  have h2 : round (3 / 2 * Real.sqrt (|(36 / 25 : ℝ)| * 1 * ([1] : List ℝ).getD 0 0) / 1)
      = 2 := by
    rw [hv, round_eq, Int.floor_eq_iff]
    constructor <;> norm_num
  refine ⟨h1, h2, ?_⟩
  rw [h1, h2]
  norm_num

/-- C7, amended: for every positive `cellSize` and `freq[0]` and every baseline, the argument
of the square root is non-negative and the support returned by `initC` is
`1.5 * sqrt(|baseline| * cellSize * freq[0]) / cellSize` truncated toward zero, which is its
floor since the value is non-negative; it is not rounded to the nearest integer. -/
theorem initC_support_truncated (baseline : ℝ) (freq : List ℝ) (cellSize : ℝ) (wSize : Int)
    (C0 : Int → Value ℝ) (hc : 0 < cellSize) (hf : 0 < freq.getD 0 0) :
    0 ≤ |baseline| * cellSize * freq.getD 0 0
      ∧ (initC (CMath.mk Real.sqrt Real.cos Real.exp) baseline freq cellSize wSize C0).support
        = ⌊3 / 2 * Real.sqrt (|baseline| * cellSize * freq.getD 0 0) / cellSize⌋
      ∧ 0 ≤ (initC (CMath.mk Real.sqrt Real.cos Real.exp) baseline freq cellSize wSize
          C0).support :=
  ⟨mul_nonneg (mul_nonneg (abs_nonneg baseline) hc.le) hf.le,
    initSupport_real baseline freq cellSize hc⟩

/-- Witness of C7 (amended): the input of the counterexample. -/
theorem initC_support_truncated_witness :
    (initC (CMath.mk Real.sqrt Real.cos Real.exp) (36 / 25) [1] 1 1 (zeroTable ℝ)).support
      = ⌊3 / 2 * Real.sqrt (|(36 / 25 : ℝ)| * 1 * ([1] : List ℝ).getD 0 0) / 1⌋ :=
  (initC_support_truncated (36 / 25) [1] 1 1 (zeroTable ℝ) one_pos (by simp)).2.1

end RealTheorems

/-! ## Further theorems on `initCOffset` -/

section OffsetTheorems2

variable {K : Type} [LinearOrderedField K] [FloorRing K]

theorem initCOffset_frame (u v w freq : List K) (cellSize wCellSize : K)
    (wSize gSize support overSample : Int) (samples : List (Sample K)) (p : Nat)
    (hp : ∀ i chan, i < u.length → chan < freq.length → i * freq.length + chan ≠ p) :
    (initCOffset u v w freq cellSize wCellSize wSize gSize support overSample samples)[p]?
      = samples[p]? := by
  unfold initCOffset
  refine forLoop_obs_frame (fun l : List (Sample K) => l[p]?) u.length _ samples ?_
  intro i hi t
  refine forLoop_obs_frame (fun l : List (Sample K) => l[p]?) freq.length _ t ?_
  intro chan hchan t2
  exact List.getElem?_modify_ne _ t2 (hp i chan hi hchan)

theorem offsetRecord_idem (f ui vi wi cellSize wCellSize : K)
    (wSize gSize support overSample : Int) (s : Sample K) :
    offsetRecord f ui vi wi cellSize wCellSize wSize gSize support overSample
        (offsetRecord f ui vi wi cellSize wCellSize wSize gSize support overSample s)
      = offsetRecord f ui vi wi cellSize wCellSize wSize gSize support overSample s := rfl

theorem initCOffset_idem (u v w freq : List K) (cellSize wCellSize : K)
    (wSize gSize support overSample : Int) (samples : List (Sample K)) :
    initCOffset u v w freq cellSize wCellSize wSize gSize support overSample
        (initCOffset u v w freq cellSize wCellSize wSize gSize support overSample samples)
      = initCOffset u v w freq cellSize wCellSize wSize gSize support overSample samples := by
  apply List.ext_getElem?
  intro p
  by_cases h : ∃ i chan, i < u.length ∧ chan < freq.length ∧ i * freq.length + chan = p
  · obtain ⟨i, chan, hi, hchan, rfl⟩ := h
    rw [initCOffset_getElem? u v w freq cellSize wCellSize wSize gSize support overSample _ i
      chan hi hchan, initCOffset_getElem? u v w freq cellSize wCellSize wSize gSize support
      overSample samples i chan hi hchan, Option.map_map]
    rfl
  · have hp : ∀ i chan, i < u.length → chan < freq.length → i * freq.length + chan ≠ p :=
      fun i chan hi hchan e => h ⟨i, chan, hi, hchan, e⟩
    rw [initCOffset_frame u v w freq cellSize wCellSize wSize gSize support overSample _ p hp]

theorem toInt_zero : toInt (0 : K) = 0 := by
  unfold toInt
  simp

theorem floorIndex_zero : floorIndex (0 : K) = 0 := by
  rw [floorIndex_eq_floor]
  exact Int.floor_zero

theorem fracIndex_zero (overSample : Int) : fracIndex overSample (0 : K) = 0 := by
  unfold fracIndex
  rw [floorIndex_zero, Int.cast_zero, sub_zero, mul_zero, toInt_zero]

/-- C11 (scenario A, single w-plane): with `wSize = 1` the only plane `k = 0` has `w = 0`,
every table entry built by `initC` before normalisation is `exp(-r2)` with imaginary part
zero, and a sample with `u = v = w = 0` gets from `initCOffset`, for non-zero cell sizes,
`iu = iv = gSize/2`, fractional indices 0 and `cOffset = 0`. -/
theorem scenarioA_single_plane (M : CMath K) (baseline : K) (freq : List K) (cellSize : K)
    (C0 : Int → Value K) (u v w : List K) (wCellSize : K) (gSize support : Int)
    (samples : List (Sample K)) (osj osi j i n chan : Nat)
    (hosj : osj < 8) (hosi : osi < 8)
    (hj : (j : Int) < 2 * (initC M baseline freq cellSize 1 C0).support + 1)
    (hi : (i : Int) < 2 * (initC M baseline freq cellSize 1 C0).support + 1)
    (hn : n < u.length) (hchan : chan < freq.length)
    (hlen : n * freq.length + chan < samples.length)
    (hu : u.getD n 0 = 0) (hv : v.getD n 0 = 0) (hw : w.getD n 0 = 0)
    (_ : cellSize ≠ 0) (_ : wCellSize ≠ 0) :
    (∀ k : Nat, (k : Int) < 1 → k = 0 ∧ planeW 1 k = (0 : K))
      ∧ initCTable M baseline freq cellSize 1 C0
          (cindex (2 * (initC M baseline freq cellSize 1 C0).support + 1) 8 i j osi osj
            (0 : Nat))
        = Value.mk (M.exp
            (-(((((j : Int) - (initC M baseline freq cellSize 1 C0).support : Int) : K)
                  + (osj : K) / 8) ^ 2
              + ((((i : Int) - (initC M baseline freq cellSize 1 C0).support : Int) : K)
                  + (osi : K) / 8) ^ 2))) 0
      ∧ fracIndex 8 (freq.getD chan 0 * u.getD n 0 / cellSize) = 0
      ∧ fracIndex 8 (freq.getD chan 0 * v.getD n 0 / cellSize) = 0
      ∧ ∃ s, (initCOffset u v w freq cellSize wCellSize 1 gSize support 8
            samples)[n * freq.length + chan]? = some s
          ∧ s.iu = gSize.tdiv 2 ∧ s.iv = gSize.tdiv 2 ∧ s.cOffset = 0 := by
  have h12 : (1 : Int).tdiv 2 = 0 := by decide
  have hw0 : planeW 1 0 = (0 : K) := by
    unfold planeW
    rw [h12]
    norm_num
  have hj2 : (j : Int) < 2 * initSupport M baseline freq cellSize + 1 := hj
  have hi2 : (i : Int) < 2 * initSupport M baseline freq cellSize + 1 := hi
  have hsup : (initC M baseline freq cellSize 1 C0).support
      = initSupport M baseline freq cellSize := rfl
  have hfu : fracIndex 8 (freq.getD chan 0 * u.getD n 0 / cellSize) = 0 := by
    rw [hu, mul_zero, zero_div, fracIndex_zero]
  have hfv : fracIndex 8 (freq.getD chan 0 * v.getD n 0 / cellSize) = 0 := by
    rw [hv, mul_zero, zero_div, fracIndex_zero]
  refine ⟨?_, ?_, hfu, hfv, ?_⟩
  · intro k hk
    have hk0 : k = 0 := by omega
    subst hk0
    exact ⟨rfl, hw0⟩
  · rw [hsup]
    unfold initCTable
    rw [fillC_target M freq cellSize 1 (initSupport M baseline freq cellSize) 8
      (initWCellSize baseline freq 1) 0 osj osi j i (by norm_num) (by exact_mod_cast hosj)
      (by exact_mod_cast hosi) hj2 hi2 C0, cCenter_eq]
    simp only [cEntry, hw0, ne_eq, not_true_eq_false, if_false, Value.ofCoord,
      Int.cast_natCast, Int.cast_ofNat]
  · obtain ⟨s0, hs0⟩ : ∃ s0, samples[n * freq.length + chan]? = some s0 :=
      ⟨samples[n * freq.length + chan], List.getElem?_eq_getElem hlen⟩
    refine ⟨offsetRecord (freq.getD chan 0) (u.getD n 0) (v.getD n 0) (w.getD n 0) cellSize
      wCellSize 1 gSize support 8 s0, ?_, ?_, ?_, ?_⟩
    · rw [initCOffset_getElem? u v w freq cellSize wCellSize 1 gSize support 8 samples n chan
        hn hchan, hs0]
      rfl
    · show floorIndex (freq.getD chan 0 * u.getD n 0 / cellSize) + gSize.tdiv 2 = _
      rw [hu, mul_zero, zero_div, floorIndex_zero, zero_add]
    · show floorIndex (freq.getD chan 0 * v.getD n 0 / cellSize) + gSize.tdiv 2 = _
      rw [hv, mul_zero, zero_div, floorIndex_zero, zero_add]
    · show (2 * support + 1) * (2 * support + 1)
          * (fracIndex 8 (freq.getD chan 0 * u.getD n 0 / cellSize)
            + 8 * (fracIndex 8 (freq.getD chan 0 * v.getD n 0 / cellSize)
              + 8 * wPlaneIndex 1 (freq.getD chan 0 * w.getD n 0 / wCellSize))) = 0
      rw [hfu, hfv, hw, mul_zero, zero_div]
      unfold wPlaneIndex
      rw [toInt_zero, h12]
      norm_num

end OffsetTheorems2

/-- Witness of C11: four samples at the grid centre, one channel, over the real numbers. -/
theorem scenarioA_single_plane_witness :
    ∃ s, (initCOffset ([0, 0, 0, 0] : List ℝ) [0, 0, 0, 0] [0, 0, 0, 0] [1] 1 2 1 16 1 8
          (centreSamples ℝ))[2 * ([1] : List ℝ).length + 0]? = some s
      ∧ s.iu = (16 : Int).tdiv 2 ∧ s.iv = (16 : Int).tdiv 2 ∧ s.cOffset = 0 :=
  (scenarioA_single_plane (CMath.mk Real.sqrt Real.cos Real.exp) 1 [1] 1 (zeroTable ℝ)
    [0, 0, 0, 0] [0, 0, 0, 0] [0, 0, 0, 0] 2 16 1 (centreSamples ℝ) 0 0 0 0 2 0
    (by norm_num) (by norm_num)
    (real_support_pixel 1 [1] 1 1 (zeroTable ℝ) one_pos)
    (real_support_pixel 1 [1] 1 1 (zeroTable ℝ) one_pos)
    (by decide) (by decide) (by decide) rfl rfl rfl one_ne_zero two_ne_zero).2.2.2.2

theorem initWCellSize_pos {K : Type} [LinearOrderedField K] (baseline : K) (freq : List K)
    (wSize : Int) (hN : 1 ≤ wSize) (hb : 0 < baseline) (hf : 0 < freq.getD 0 0) :
    0 < initWCellSize baseline freq wSize := by
  have hwK : (0 : K) < (wSize : K) := by exact_mod_cast (by omega : (0 : Int) < wSize)
  unfold initWCellSize
  positivity

theorem wScaled_bound {K : Type} [LinearOrderedField K] (baseline : K) (freq : List K)
    (wSize : Int) (fc wi : K)
    (hN : 1 ≤ wSize) (hb : 0 < baseline) (hw : |wi| ≤ baseline / 2) (hf0 : 0 < fc)
    (hf1 : fc ≤ freq.getD 0 0) :
    4 * |fc * wi / initWCellSize baseline freq wSize| ≤ (wSize : K) := by
  have hf : 0 < freq.getD 0 0 := lt_of_lt_of_le hf0 hf1
  have hwK : (0 : K) < (wSize : K) := by exact_mod_cast (by omega : (0 : Int) < wSize)
  have hc := initWCellSize_pos baseline freq wSize hN hb hf
  have hnum : fc * |wi| ≤ freq.getD 0 0 * (baseline / 2) :=
    mul_le_mul hf1 hw (abs_nonneg wi) hf.le
  rw [abs_div, abs_mul, abs_of_pos hf0, abs_of_pos hc]
  have key : ∀ f0 : K, 0 < f0 →
      (wSize : K) = 4 * (f0 * (baseline / 2) / (2 * baseline * f0 / (wSize : K))) := by
    intro f0 h0
    field_simp
    ring
  have e : (wSize : K)
      = 4 * (freq.getD 0 0 * (baseline / 2) / initWCellSize baseline freq wSize) :=
    key _ hf
  rw [e]
  exact mul_le_mul_of_nonneg_left (div_le_div_of_nonneg_right hnum hc.le) (by norm_num)

section OffsetTheorems3

variable {K : Type} [LinearOrderedField K] [FloorRing K]

/-- C12 (offset determinism and idempotence): the `iu`, `iv` and `cOffset` that `initCOffset`
writes to record `i*nChan + chan` are those of `offsetRecord` on `u[i]`, `v[i]`, `w[i]`,
`freq[chan]` and the scalar arguments; two calls that agree on these (with the same number of
channels) write the same three integers, whatever the sample data, the other coordinates and
the offsets stored before; and a second call with the same arguments leaves the array as
the first call left it. -/
theorem initCOffset_deterministic (u v w freq u' v' w' freq' : List K)
    (cellSize wCellSize : K) (wSize gSize support overSample : Int)
    (samples samples' : List (Sample K)) (i chan : Nat)
    (hi : i < u.length) (hi' : i < u'.length) (hchan : chan < freq.length)
    (hfl : freq'.length = freq.length)
    (hlen : i * freq.length + chan < samples.length)
    (hlen' : i * freq.length + chan < samples'.length)
    (hu : u'.getD i 0 = u.getD i 0) (hv : v'.getD i 0 = v.getD i 0)
    (hw : w'.getD i 0 = w.getD i 0) (hf : freq'.getD chan 0 = freq.getD chan 0) :
    (∃ s s',
        (initCOffset u v w freq cellSize wCellSize wSize gSize support overSample
          samples)[i * freq.length + chan]? = some s
        ∧ (initCOffset u' v' w' freq' cellSize wCellSize wSize gSize support overSample
          samples')[i * freq.length + chan]? = some s'
        ∧ s'.iu = s.iu ∧ s'.iv = s.iv ∧ s'.cOffset = s.cOffset
        ∧ ∀ r : Sample K,
            s.iu = (offsetRecord (freq.getD chan 0) (u.getD i 0) (v.getD i 0) (w.getD i 0)
              cellSize wCellSize wSize gSize support overSample r).iu
            ∧ s.iv = (offsetRecord (freq.getD chan 0) (u.getD i 0) (v.getD i 0) (w.getD i 0)
              cellSize wCellSize wSize gSize support overSample r).iv
            ∧ s.cOffset = (offsetRecord (freq.getD chan 0) (u.getD i 0) (v.getD i 0)
              (w.getD i 0) cellSize wCellSize wSize gSize support overSample r).cOffset)
      ∧ initCOffset u v w freq cellSize wCellSize wSize gSize support overSample
          (initCOffset u v w freq cellSize wCellSize wSize gSize support overSample samples)
        = initCOffset u v w freq cellSize wCellSize wSize gSize support overSample samples := by
  obtain ⟨s0, hs0⟩ : ∃ s0, samples[i * freq.length + chan]? = some s0 :=
    ⟨samples[i * freq.length + chan], List.getElem?_eq_getElem hlen⟩
  obtain ⟨s0', hs0'⟩ : ∃ s0', samples'[i * freq.length + chan]? = some s0' :=
    ⟨samples'[i * freq.length + chan], List.getElem?_eq_getElem hlen'⟩
  refine ⟨⟨offsetRecord (freq.getD chan 0) (u.getD i 0) (v.getD i 0) (w.getD i 0) cellSize
      wCellSize wSize gSize support overSample s0,
    offsetRecord (freq'.getD chan 0) (u'.getD i 0) (v'.getD i 0) (w'.getD i 0) cellSize
      wCellSize wSize gSize support overSample s0', ?_, ?_, ?_, ?_, ?_, ?_⟩,
    initCOffset_idem u v w freq cellSize wCellSize wSize gSize support overSample samples⟩
  · rw [initCOffset_getElem? u v w freq cellSize wCellSize wSize gSize support overSample
      samples i chan hi hchan, hs0]
    rfl
  · have h := initCOffset_getElem? u' v' w' freq' cellSize wCellSize wSize gSize support
      overSample samples' i chan hi' (by omega)
    rw [hfl] at h
    rw [h, hs0']
    rfl
  · rw [hu, hf]
    rfl
  · rw [hv, hf]
    rfl
  · rw [hu, hv, hw, hf]
    rfl
  · intro r
    exact ⟨rfl, rfl, rfl⟩

/-- Witness of C12: record `1*2 + 1` of the example, against a call with other data, other
neighbouring coordinates and other stored offsets. -/
theorem initCOffset_deterministic_witness :
    ∃ s s',
      (initCOffset exU exV exW exFreq 1 1 4 16 1 8 exSamples)[1 * exFreq.length + 1]? = some s
      ∧ (initCOffset [7, 3] [0, -1] [9, 1 / 2] [5, 2] 1 1 4 16 1 8
          (centreSamples ℚ))[1 * exFreq.length + 1]? = some s'
      ∧ s'.iu = s.iu ∧ s'.iv = s.iv ∧ s'.cOffset = s.cOffset := by
  obtain ⟨⟨s, s', h1, h2, h3, h4, h5, _⟩, _⟩ := initCOffset_deterministic exU exV exW exFreq
    [7, 3] [0, -1] [9, 1 / 2] [5, 2] 1 1 4 16 1 8 exSamples (centreSamples ℚ) 1 1 (by decide)
    (by decide) (by decide) (by decide) (by decide) (by decide) rfl rfl rfl rfl
  exact ⟨s, s', h1, h2, h3, h4, h5⟩

theorem offsetRecord_cOffset (f ui vi wi cellSize wCellSize : K)
    (wSize gSize support overSample : Int) (s : Sample K) :
    (offsetRecord f ui vi wi cellSize wCellSize wSize gSize support overSample s).cOffset
      = cOffsetOf (2 * support + 1) overSample (fracIndex overSample (f * ui / cellSize))
          (fracIndex overSample (f * vi / cellSize)) (wPlaneIndex wSize (f * wi / wCellSize)) :=
  rfl

theorem tableSize_eq (support overSample wSize : Int) :
    tableSize support overSample wSize
      = (2 * support + 1) * (2 * support + 1) * (overSample * (overSample * wSize)) := by
  unfold tableSize
  ring

theorem cOffsetOf_bound (support overSample wSize fracu fracv wPlane : Int) (du dv : Nat)
    (hu0 : 0 ≤ fracu) (hu1 : fracu < overSample) (hv0 : 0 ≤ fracv) (hv1 : fracv < overSample)
    (hw0 : 0 ≤ wPlane) (hw1 : wPlane < wSize)
    (hdu : (du : Int) < 2 * support + 1) (hdv : (dv : Int) < 2 * support + 1) :
    0 ≤ cOffsetOf (2 * support + 1) overSample fracu fracv wPlane + (du : Int)
        + (2 * support + 1) * (dv : Int)
      ∧ cOffsetOf (2 * support + 1) overSample fracu fracv wPlane + (du : Int)
        + (2 * support + 1) * (dv : Int) < tableSize support overSample wSize := by
  have h1 := radix_bound overSample fracv wPlane wSize hv0 hv1 hw0 hw1
  have h2 := radix_bound overSample fracu (overSample * wPlane + fracv) (overSample * wSize)
    hu0 hu1 h1.1 h1.2
  have h3 := radix_bound (2 * support + 1) du dv (2 * support + 1) (Int.ofNat_nonneg _) hdu
    (Int.ofNat_nonneg _) hdv
  have h4 := radix_bound ((2 * support + 1) * (2 * support + 1))
    ((2 * support + 1) * (dv : Int) + (du : Int)) (overSample * (overSample * wPlane + fracv)
      + fracu) (overSample * (overSample * wSize)) h3.1 h3.2 h2.1 h2.2
  have e : cOffsetOf (2 * support + 1) overSample fracu fracv wPlane + (du : Int)
      + (2 * support + 1) * (dv : Int)
      = (2 * support + 1) * (2 * support + 1)
          * (overSample * (overSample * wPlane + fracv) + fracu)
        + ((2 * support + 1) * (dv : Int) + (du : Int)) := by
    unfold cOffsetOf
    ring
  rw [e, tableSize_eq]
  exact h4

/-- C13 (table region in bounds): for `support ≥ 0`, fractional indices in `[0, overSample)`
and a plane in `[0, wSize)`, the offset of line 365 is non-negative, its block of
`sSize*sSize` entries ends within the `sSize*sSize*overSample*overSample*wSize` entries of the
table, and every index `cOffset + du + sSize*dv` with `du, dv < sSize`, as well as the two
coordinates `ic` and `ic+1` that `gridKernel` reads for it, lies inside the table; the
`cOffset` stored by `initCOffset` is this offset at its own fractional and plane indices. -/
theorem table_region_in_bounds (support overSample wSize fracu fracv wPlane : Int)
    (hs : 0 ≤ support) (hu0 : 0 ≤ fracu) (hu1 : fracu < overSample) (hv0 : 0 ≤ fracv)
    (hv1 : fracv < overSample) (hw0 : 0 ≤ wPlane) (hw1 : wPlane < wSize) :
    0 ≤ cOffsetOf (2 * support + 1) overSample fracu fracv wPlane
      ∧ cOffsetOf (2 * support + 1) overSample fracu fracv wPlane
          + (2 * support + 1) * (2 * support + 1) ≤ tableSize support overSample wSize
      ∧ (∀ du dv : Nat, (du : Int) < 2 * support + 1 → (dv : Int) < 2 * support + 1 →
          0 ≤ cOffsetOf (2 * support + 1) overSample fracu fracv wPlane + (du : Int)
              + (2 * support + 1) * (dv : Int)
            ∧ cOffsetOf (2 * support + 1) overSample fracu fracv wPlane + (du : Int)
              + (2 * support + 1) * (dv : Int) < tableSize support overSample wSize
            ∧ 0 ≤ (cOffsetOf (2 * support + 1) overSample fracu fracv wPlane
              + (2 * support + 1) * (dv : Int)) * 2 + 2 * (du : Int)
            ∧ (cOffsetOf (2 * support + 1) overSample fracu fracv wPlane
              + (2 * support + 1) * (dv : Int)) * 2 + 2 * (du : Int) + 1
                < tableSize support overSample wSize * 2)
      ∧ (∀ (f ui vi wi cellSize wCellSize : K) (gSize : Int) (s : Sample K),
          (offsetRecord f ui vi wi cellSize wCellSize wSize gSize support overSample s).cOffset
            = cOffsetOf (2 * support + 1) overSample
                (fracIndex overSample (f * ui / cellSize))
                (fracIndex overSample (f * vi / cellSize))
                (wPlaneIndex wSize (f * wi / wCellSize))) := by
  have hfirst := cOffsetOf_bound support overSample wSize fracu fracv wPlane 0 0 hu0 hu1 hv0 hv1
    hw0 hw1 (by simp; omega) (by simp; omega)
  have hlast := cOffsetOf_bound support overSample wSize fracu fracv wPlane
    (2 * support).toNat (2 * support).toNat hu0 hu1 hv0 hv1 hw0 hw1
    (by rw [Int.toNat_of_nonneg (by omega)]; omega)
    (by rw [Int.toNat_of_nonneg (by omega)]; omega)
  rw [Int.toNat_of_nonneg (by omega)] at hlast
  simp only [Nat.cast_zero, mul_zero, add_zero] at hfirst
  refine ⟨hfirst.1, ?_, ?_, fun f ui vi wi cellSize wCellSize gSize s => rfl⟩
  · have e : (2 * support + 1) * (2 * support + 1)
        = 2 * support + (2 * support + 1) * (2 * support) + 1 := by ring
    have := hlast.2
    omega
  · intro du dv hdu hdv
    have h := cOffsetOf_bound support overSample wSize fracu fracv wPlane du dv hu0 hu1 hv0 hv1
      hw0 hw1 hdu hdv
    refine ⟨h.1, h.2, ?_, ?_⟩ <;> omega

/-- Witness of C13: `support = 3`, `overSample = 8`, 33 planes, the last block of the table. -/
theorem table_region_in_bounds_witness :
    0 ≤ cOffsetOf (2 * 3 + 1) 8 7 7 32
      ∧ cOffsetOf (2 * 3 + 1) 8 7 7 32 + (2 * 3 + 1) * (2 * 3 + 1) ≤ tableSize 3 8 33 :=
  ⟨(table_region_in_bounds (K := ℚ) 3 8 33 7 7 32 (by decide) (by decide) (by decide)
      (by decide) (by decide) (by decide) (by decide)).1,
    (table_region_in_bounds (K := ℚ) 3 8 33 7 7 32 (by decide) (by decide) (by decide)
      (by decide) (by decide) (by decide) (by decide)).2.1⟩

/-- C14 (w-plane index in range for the synthetic input): for `wSize ≥ 1`, a positive
baseline, `|w| ≤ baseline/2` and a channel frequency with `0 < freq[chan] ≤ freq[0]`, with
the `wCellSize` of `initC`, the plane `wSize/2 + int(freq[chan]*w/wCellSize)` of
`initCOffset` lies in `[0, wSize)`; the coordinates and frequencies that `init` generates
from values `rd` in `[0, 1]` satisfy both conditions. -/
theorem wPlane_in_range (baseline : K) (freq : List K) (wSize : Int) (fc wi : K)
    (hN : 1 ≤ wSize) (hb : 0 < baseline) (hw : |wi| ≤ baseline / 2) (hf0 : 0 < fc)
    (hf1 : fc ≤ freq.getD 0 0) :
    0 ≤ wPlaneIndex wSize (fc * wi / initWCellSize baseline freq wSize)
      ∧ wPlaneIndex wSize (fc * wi / initWCellSize baseline freq wSize) < wSize
      ∧ (∀ rd : K, 0 ≤ rd → rd ≤ 1 → |initCoord baseline rd| ≤ baseline / 2)
      ∧ (∀ nChan chan : Nat, chan < nChan →
          (0 : K) < initFreq nChan chan ∧ (initFreq nChan chan : K) ≤ initFreq nChan 0) := by
  have hx := wScaled_bound baseline freq wSize fc wi hN hb hw hf0 hf1
  have ht := (toInt_toward_zero (fc * wi / initWCellSize baseline freq wSize)).1
  have h4 : 4 * |((toInt (fc * wi / initWCellSize baseline freq wSize) : Int) : K)|
      ≤ (wSize : K) := le_trans (mul_le_mul_of_nonneg_left ht (by norm_num)) hx
  have h4i : 4 * |toInt (fc * wi / initWCellSize baseline freq wSize)| ≤ wSize := by
    have : (((4 * |toInt (fc * wi / initWCellSize baseline freq wSize)| : Int)) : K)
        ≤ (wSize : K) := by
      push_cast
      exact h4
    exact_mod_cast this
  have hdiv : wSize.tdiv 2 = wSize / 2 := Int.tdiv_eq_ediv (by omega) (by norm_num)
  have habs := abs_le.mp (le_refl |toInt (fc * wi / initWCellSize baseline freq wSize)|)
  refine ⟨?_, ?_, ?_, ?_⟩
  · unfold wPlaneIndex
    rw [hdiv]
    omega
  · unfold wPlaneIndex
    rw [hdiv]
    omega
  · intro rd h0 h1
    unfold initCoord
    rw [abs_le]
    constructor <;> nlinarith
  · intro nChan chan hc
    have hn : (0 : K) < (nChan : K) := by exact_mod_cast (Nat.lt_of_le_of_lt (Nat.zero_le _) hc)
    have hq0 : (0 : K) ≤ (chan : K) / (nChan : K) := div_nonneg (Nat.cast_nonneg _) hn.le
    have hq1 : (chan : K) / (nChan : K) ≤ 1 := by
      rw [div_le_one hn]
      exact_mod_cast hc.le
    unfold initFreq
    constructor
    · apply div_pos _ (by norm_num)
      rw [mul_div_assoc]
      nlinarith
    · apply div_le_div_of_nonneg_right _ (by norm_num)
      rw [mul_div_assoc, mul_div_assoc]
      simp only [Nat.cast_zero, zero_div, mul_zero, sub_zero]
      nlinarith

/-- Witness of C14: four planes, `baseline = 2`, `w = -1` on the edge of the range, and the
channel frequency equal to `freq[0]`. -/
theorem wPlane_in_range_witness :
    0 ≤ wPlaneIndex 4 ((3 : ℚ) * (-1) / initWCellSize 2 [3, 2] 4)
      ∧ wPlaneIndex 4 ((3 : ℚ) * (-1) / initWCellSize 2 [3, 2] 4) < 4 :=
  ⟨(wPlane_in_range 2 [3, 2] 4 3 (-1) (by decide) (by norm_num) (by norm_num [abs_of_neg])
      (by norm_num) (by norm_num)).1,
    (wPlane_in_range 2 [3, 2] 4 3 (-1) (by decide) (by norm_num) (by norm_num [abs_of_neg])
      (by norm_num) (by norm_num)).2.1⟩

end OffsetTheorems3

/-! ## Further theorems on `gridKernel` -/

section FrameTheorems

variable {K : Type} [CommRing K]

end FrameTheorems

/-! ## Further theorems on `initC` -/

section PlaneTheorems

theorem planeW_eq_zero_iff {K : Type} [LinearOrderedField K] (wSize : Int) (k : Nat) :
    planeW wSize k = (0 : K) ↔ (k : Int) = wSize.tdiv 2 := by
  unfold planeW
  rw [Int.cast_eq_zero, sub_eq_zero]

/-- C16 (no division by zero): over the real numbers, for `wSize ≥ 1` and positive baseline,
cell size and `freq[0]`, on every plane `k < wSize` with `w = k - wSize/2 ≠ 0` the scale
`fScale` is positive and the divisor `w * fScale` is non-zero; `w = 0`, the condition of the
`exp(-r2)` branch, holds exactly for `k = wSize/2`, and `0 ≤ wSize/2 < wSize`. -/
theorem initC_no_division_by_zero (baseline : ℝ) (freq : List ℝ) (cellSize : ℝ) (wSize : Int)
    (C0 : Int → Value ℝ) (hw : 1 ≤ wSize) (hb : 0 < baseline) (hc : 0 < cellSize) (hf : 0 < freq.getD 0 0) :
    (∀ k : Nat, (k : Int) < wSize → planeW wSize k ≠ (0 : ℝ) →
        0 < planeFScale (CMath.mk Real.sqrt Real.cos Real.exp) freq cellSize
            (initC (CMath.mk Real.sqrt Real.cos Real.exp) baseline freq cellSize wSize
              C0).wCellSize (planeW wSize k)
        ∧ planeW wSize k
          * planeFScale (CMath.mk Real.sqrt Real.cos Real.exp) freq cellSize
            (initC (CMath.mk Real.sqrt Real.cos Real.exp) baseline freq cellSize wSize
              C0).wCellSize (planeW wSize k) ≠ 0)
      ∧ (∀ k : Nat, planeW wSize k = (0 : ℝ) ↔ (k : Int) = wSize.tdiv 2)
      ∧ 0 ≤ wSize.tdiv 2 ∧ wSize.tdiv 2 < wSize := by
  have hwc : 0 < initWCellSize baseline freq wSize :=
    initWCellSize_pos baseline freq wSize hw hb hf
  obtain ⟨hz1, hz2⟩ := zero_plane wSize hw
  refine ⟨?_, fun k => planeW_eq_zero_iff wSize k, by omega, by omega⟩
  intro k _ hk
  have hpos : 0 < planeFScale (CMath.mk Real.sqrt Real.cos Real.exp) freq cellSize
      (initWCellSize baseline freq wSize) (planeW wSize k) := by
    unfold planeFScale
    exact div_pos (Real.sqrt_pos.mpr
      (mul_pos (mul_pos (abs_pos.mpr hk) hwc) hf)) hc
  exact ⟨hpos, mul_ne_zero hk (ne_of_gt hpos)⟩

/-- Witness of C16: three planes, unit baseline, cell size and frequency; plane 0 has
`w = -1`. -/
theorem initC_no_division_by_zero_witness :
    planeW 3 0
      * planeFScale (CMath.mk Real.sqrt Real.cos Real.exp) [1] 1
        (initC (CMath.mk Real.sqrt Real.cos Real.exp) 1 [1] 1 3 (zeroTable ℝ)).wCellSize
        (planeW 3 0) ≠ (0 : ℝ) :=
  ((initC_no_division_by_zero 1 [1] 1 3 (zeroTable ℝ) (by norm_num) one_pos one_pos
    (by simp)).1 0
    (by norm_num)
    (by rw [Ne, planeW_eq_zero_iff]; decide)).2

end PlaneTheorems

section LayoutTheorems

theorem coordView_even {K : Type} (C : Int → Value K) (c : Int) :
    coordView C (2 * c) = (C c).real := by
  unfold coordView
  rw [if_pos (by omega), Int.mul_ediv_cancel_left c (by norm_num)]

theorem coordView_odd {K : Type} (C : Int → Value K) (c : Int) :
    coordView C (2 * c + 1) = (C c).imag := by
  have h : (2 * c + 1) / 2 = c := by omega
  unfold coordView
  rw [if_neg (by omega), h]

theorem gridSample_congr {K : Type} [CommRing K] (support gSize : Int) (cptr cptr' : Int → K)
    (s : Sample K) (g : Int → K)
    (h : ∀ suppv suppu : Nat, (suppv : Int) < 2 * support + 1 → (suppu : Int) < 2 * support + 1 →
      cptr' ((s.cOffset + (2 * support + 1) * (suppv : Int)) * 2 + 2 * (suppu : Int))
          = cptr ((s.cOffset + (2 * support + 1) * (suppv : Int)) * 2 + 2 * (suppu : Int))
        ∧ cptr' ((s.cOffset + (2 * support + 1) * (suppv : Int)) * 2 + 2 * (suppu : Int) + 1)
          = cptr ((s.cOffset + (2 * support + 1) * (suppv : Int)) * 2 + 2 * (suppu : Int) + 1)) :
    gridSample support gSize cptr' s g = gridSample support gSize cptr s g := by
  unfold gridSample
  apply forLoop_congr
  intro suppv hv
  funext g1
  apply forLoop_congr
  intro suppu hu
  funext g2
  obtain ⟨h1, h2⟩ := h suppv suppu (by omega) (by omega)
  simp only [h1, h2]

variable {K : Type} [LinearOrderedField K] [FloorRing K]

/-- C17 (layout agreement): let the sample's `cOffset` be the offset of line 365 for
fractional indices `fracu, fracv < overSample` and plane `wPlane < wSize`, and let `cptr` be
the coordinates of the table built by the loops of `initC`.  For `du, dv < sSize` the index
`cOffset + du + sSize*dv` is the index `cind` of `initC` for pixel `i = du`, `j = dv`,
offsets `osi = fracu`, `osj = fracv` and plane `k = wPlane`; the step of `gridKernel` for
the sample (`gridSample`, kernel no wider than the grid) adds to the cell of `(du, dv)` the
complex product of the sample data with the entry `initC` computed for that tuple; and the
step reads the table at no other indices: a table agreeing with `cptr` at the coordinates of
these `cind` gives the same grid.  The `cOffset` stored by `initCOffset` is the offset of
its own `fracu`, `fracv` and plane, and `gridKernel` run on this one sample yields, on every
coordinate of the grid, the result of the step plus the content of the device buffers. -/
theorem layout_agreement (M : CMath K) (freq : List K) (cellSize : K)
    (wSize support overSample gSize : Int) (wCellSize : K) (C0 : Int → Value K)
    (s : Sample K) (g : Int → K) (fracu fracv wPlane du dv : Nat)
    (hfu : (fracu : Int) < overSample) (hfv : (fracv : Int) < overSample)
    (hwp : (wPlane : Int) < wSize)
    (hdu : (du : Int) < 2 * support + 1) (hdv : (dv : Int) < 2 * support + 1)
    (hs : s.cOffset = cOffsetOf (2 * support + 1) overSample fracu fracv wPlane)
    (hg : 2 * support + 1 ≤ gSize) :
    s.cOffset + (du : Int) + (2 * support + 1) * (dv : Int)
        = cindex (2 * support + 1) overSample du dv fracu fracv wPlane
      ∧ gridSample support gSize
          (coordView (fillC M freq cellSize wSize support overSample wCellSize C0)) s g
          (2 * ((s.iu - support + (du : Int)) + gSize * (s.iv + (dv : Int))))
        = g (2 * ((s.iu - support + (du : Int)) + gSize * (s.iv + (dv : Int))))
          + (s.data.real
              * (cEntry M ((2 * support + 1 - 1).tdiv 2) overSample (planeW wSize wPlane)
                  (planeFScale M freq cellSize wCellSize (planeW wSize wPlane))
                  fracv fracu dv du).real
            - s.data.imag
              * (cEntry M ((2 * support + 1 - 1).tdiv 2) overSample (planeW wSize wPlane)
                  (planeFScale M freq cellSize wCellSize (planeW wSize wPlane))
                  fracv fracu dv du).imag)
      ∧ gridSample support gSize
          (coordView (fillC M freq cellSize wSize support overSample wCellSize C0)) s g
          (2 * ((s.iu - support + (du : Int)) + gSize * (s.iv + (dv : Int))) + 1)
        = g (2 * ((s.iu - support + (du : Int)) + gSize * (s.iv + (dv : Int))) + 1)
          + (s.data.real
              * (cEntry M ((2 * support + 1 - 1).tdiv 2) overSample (planeW wSize wPlane)
                  (planeFScale M freq cellSize wCellSize (planeW wSize wPlane))
                  fracv fracu dv du).imag
            + s.data.imag
              * (cEntry M ((2 * support + 1 - 1).tdiv 2) overSample (planeW wSize wPlane)
                  (planeFScale M freq cellSize wCellSize (planeW wSize wPlane))
                  fracv fracu dv du).real)
      ∧ (∀ cptr' : Int → K,
          (∀ i j : Nat, (i : Int) < 2 * support + 1 → (j : Int) < 2 * support + 1 →
            cptr' (2 * cindex (2 * support + 1) overSample i j fracu fracv wPlane)
                = coordView (fillC M freq cellSize wSize support overSample wCellSize C0)
                    (2 * cindex (2 * support + 1) overSample i j fracu fracv wPlane)
              ∧ cptr' (2 * cindex (2 * support + 1) overSample i j fracu fracv wPlane + 1)
                = coordView (fillC M freq cellSize wSize support overSample wCellSize C0)
                    (2 * cindex (2 * support + 1) overSample i j fracu fracv wPlane + 1)) →
          gridSample support gSize cptr' s g
            = gridSample support gSize
                (coordView (fillC M freq cellSize wSize support overSample wCellSize C0)) s g)
      ∧ (∀ (f ui vi wi : K) (r : Sample K),
          (offsetRecord f ui vi wi cellSize wCellSize wSize gSize support overSample r).cOffset
            = cOffsetOf (2 * support + 1) overSample
                (fracIndex overSample (f * ui / cellSize))
                (fracIndex overSample (f * vi / cellSize))
                (wPlaneIndex wSize (f * wi / wCellSize)))
      ∧ (∀ (MAX_MIC gridLen : Nat) (cptr tmp : Int → K) (dev0 : Nat → Int → K) (p : Int),
          0 ≤ p → p < (gridLen : Int) * 2 →
          gridKernel MAX_MIC support cptr g gridLen gSize [s] tmp dev0 p
            = gridSample support gSize cptr s g p
              + ∑ k in Finset.range MAX_MIC, dev0 k p) := by
  have eidx : ∀ i j : Int, s.cOffset + i + (2 * support + 1) * j
      = cindex (2 * support + 1) overSample i j fracu fracv wPlane := by
    intro i j
    rw [hs]
    unfold cOffsetOf cindex
    ring
  have hval : fillC M freq cellSize wSize support overSample wCellSize C0
      (cindex (2 * support + 1) overSample du dv fracu fracv wPlane)
      = cEntry M ((2 * support + 1 - 1).tdiv 2) overSample (planeW wSize wPlane)
          (planeFScale M freq cellSize wCellSize (planeW wSize wPlane)) fracv fracu dv du :=
    fillC_target M freq cellSize wSize support overSample wCellSize wPlane fracv fracu dv du
      hwp hfv hfu hdv hdu C0
  obtain ⟨hre, him⟩ := gridSample_cell support gSize
    (coordView (fillC M freq cellSize wSize support overSample wCellSize C0)) s g du dv hdu hdv
    hg
  rw [eidx, coordView_even, coordView_odd, hval] at hre him
  refine ⟨eidx du dv, hre, him, ?_, fun f ui vi wi r => rfl, ?_⟩
  · intro cptr' hag
    apply gridSample_congr
    intro suppv suppu hv hu
    have e : (s.cOffset + (2 * support + 1) * (suppv : Int)) * 2 + 2 * (suppu : Int)
        = 2 * cindex (2 * support + 1) overSample suppu suppv fracu fracv wPlane := by
      rw [← eidx]
      ring
    rw [e]
    exact hag suppu suppv hu hv
  · intro MAX_MIC gridLen cptr tmp dev0 p hp0 hpG
    rw [gridKernel_apply MAX_MIC support cptr g gridLen gSize [s] tmp dev0 p hp0 hpG]
    rfl

/-- Witness of C17: `support = 1`, `overSample = 8`, five planes, a 16-wide grid, offsets
`(du, dv) = (2, 1)`, over the real numbers. -/
theorem layout_agreement_witness :
    (layoutSample ℝ).cOffset + ((2 : Nat) : Int) + (2 * 1 + 1) * ((1 : Nat) : Int)
        = cindex (2 * 1 + 1) 8 ((2 : Nat) : Int) ((1 : Nat) : Int) ((3 : Nat) : Int)
          ((5 : Nat) : Int) ((4 : Nat) : Int)
      ∧ gridSample 1 16
          (coordView (fillC (CMath.mk Real.sqrt Real.cos Real.exp) [1] 1 5 1 8 1
            (zeroTable ℝ))) (layoutSample ℝ) (fun _ => 0)
          (2 * (((layoutSample ℝ).iu - 1 + ((2 : Nat) : Int))
            + 16 * ((layoutSample ℝ).iv + ((1 : Nat) : Int))))
        = (fun _ : Int => (0 : ℝ))
            (2 * (((layoutSample ℝ).iu - 1 + ((2 : Nat) : Int))
              + 16 * ((layoutSample ℝ).iv + ((1 : Nat) : Int))))
          + ((layoutSample ℝ).data.real
              * (cEntry (CMath.mk Real.sqrt Real.cos Real.exp) ((2 * 1 + 1 - 1 : Int).tdiv 2) 8
                  (planeW 5 4)
                  (planeFScale (CMath.mk Real.sqrt Real.cos Real.exp) [1] 1 1 (planeW 5 4))
                  5 3 1 2).real
            - (layoutSample ℝ).data.imag
              * (cEntry (CMath.mk Real.sqrt Real.cos Real.exp) ((2 * 1 + 1 - 1 : Int).tdiv 2) 8
                  (planeW 5 4)
                  (planeFScale (CMath.mk Real.sqrt Real.cos Real.exp) [1] 1 1 (planeW 5 4))
                  5 3 1 2).imag) :=
  ⟨(layout_agreement (CMath.mk Real.sqrt Real.cos Real.exp) [1] 1 5 1 8 16 1 (zeroTable ℝ)
      (layoutSample ℝ) (fun _ => 0) 3 5 4 2 1 (by decide) (by decide) (by decide) (by decide)
      (by decide) rfl (by decide)).1,
    (layout_agreement (CMath.mk Real.sqrt Real.cos Real.exp) [1] 1 5 1 8 16 1 (zeroTable ℝ)
      (layoutSample ℝ) (fun _ => 0) 3 5 4 2 1 (by decide) (by decide) (by decide) (by decide)
      (by decide) rfl (by decide)).2.1⟩

end LayoutTheorems

section CoverageTheorems

theorem radix_unique (A a a' b b' : Int) (ha0 : 0 ≤ a) (ha : a < A) (ha0' : 0 ≤ a')
    (ha' : a' < A) (h : A * b + a = A * b' + a') : a = a' ∧ b = b' := by
  have hA : 0 ≤ A := by omega
  have hb : b = b' := by
    by_contra hne
    rcases lt_or_gt_of_ne hne with hlt | hgt
    · have h2 : A * (b + 1) ≤ A * b' := mul_le_mul_of_nonneg_left (by omega) hA
      have h3 : A * (b + 1) = A * b + A := by ring
      omega
    · have h2 : A * (b' + 1) ≤ A * b := mul_le_mul_of_nonneg_left (by omega) hA
      have h3 : A * (b' + 1) = A * b' + A := by ring
      omega
  subst hb
  exact ⟨by omega, rfl⟩

theorem radix_decode (A Bd p : Int) (hA : 0 < A) (hp0 : 0 ≤ p) (hp : p < A * Bd) :
    ∃ a b : Int, 0 ≤ a ∧ a < A ∧ 0 ≤ b ∧ b < Bd ∧ p = A * b + a := by
  refine ⟨p % A, p / A, Int.emod_nonneg p (ne_of_gt hA), Int.emod_lt_of_pos p hA,
    Int.ediv_nonneg hp0 hA.le, Int.ediv_lt_of_lt_mul hA (by rw [mul_comm]; exact hp), ?_⟩
  have := Int.emod_add_ediv p A
  omega

theorem cindex_inj (s os i j osi osj k i' j' osi' osj' k' : Int)
    (hi0 : 0 ≤ i) (hi : i < s) (hj0 : 0 ≤ j) (hj : j < s) (hosi0 : 0 ≤ osi) (hosi : osi < os)
    (hosj0 : 0 ≤ osj) (hosj : osj < os)
    (hi0' : 0 ≤ i') (hi' : i' < s) (hj0' : 0 ≤ j') (hj' : j' < s) (hosi0' : 0 ≤ osi')
    (hosi' : osi' < os) (hosj0' : 0 ≤ osj') (hosj' : osj' < os)
    (h : cindex s os i j osi osj k = cindex s os i' j' osi' osj' k') :
    i = i' ∧ j = j' ∧ osi = osi' ∧ osj = osj' ∧ k = k' := by
  unfold cindex at h
  obtain ⟨h1, h2⟩ := radix_unique s i i' (j + s * (osi + os * (osj + os * k)))
    (j' + s * (osi' + os * (osj' + os * k'))) hi0 hi hi0' hi' (by omega)
  obtain ⟨h3, h4⟩ := radix_unique s j j' (osi + os * (osj + os * k))
    (osi' + os * (osj' + os * k')) hj0 hj hj0' hj' (by omega)
  obtain ⟨h5, h6⟩ := radix_unique os osi osi' (osj + os * k) (osj' + os * k') hosi0 hosi
    hosi0' hosi' (by omega)
  obtain ⟨h7, h8⟩ := radix_unique os osj osj' k k' hosj0 hosj hosj0' hosj' (by omega)
  exact ⟨h1, h3, h5, h7, h8⟩

theorem cindex_range (s os wSize i j osi osj k : Int)
    (hi0 : 0 ≤ i) (hi : i < s) (hj0 : 0 ≤ j) (hj : j < s) (hosi0 : 0 ≤ osi) (hosi : osi < os)
    (hosj0 : 0 ≤ osj) (hosj : osj < os) (hk0 : 0 ≤ k) (hk : k < wSize) :
    0 ≤ cindex s os i j osi osj k
      ∧ cindex s os i j osi osj k < s * (s * (os * (os * wSize))) := by
  have h1 := radix_bound os osj k wSize hosj0 hosj hk0 hk
  have h2 := radix_bound os osi (os * k + osj) (os * wSize) hosi0 hosi h1.1 h1.2
  have h3 := radix_bound s j (os * (os * k + osj) + osi) (os * (os * wSize)) hj0 hj h2.1 h2.2
  have h4 := radix_bound s i (s * (os * (os * k + osj) + osi) + j) (s * (os * (os * wSize)))
    hi0 hi h3.1 h3.2
  have e : cindex s os i j osi osj k = s * (s * (os * (os * k + osj) + osi) + j) + i := by
    unfold cindex
    ring
  rw [e]
  exact h4

theorem cindex_surj (s os wSize p : Int) (hs : 0 < s) (ho : 0 < os) (hp0 : 0 ≤ p)
    (hp : p < s * (s * (os * (os * wSize)))) :
    ∃ i j osi osj k : Int, 0 ≤ i ∧ i < s ∧ 0 ≤ j ∧ j < s ∧ 0 ≤ osi ∧ osi < os ∧ 0 ≤ osj
      ∧ osj < os ∧ 0 ≤ k ∧ k < wSize ∧ cindex s os i j osi osj k = p := by
  obtain ⟨i, X, hi0, hi, hX0, hX, e1⟩ := radix_decode s _ p hs hp0 hp
  obtain ⟨j, Y, hj0, hj, hY0, hY, e2⟩ := radix_decode s _ X hs hX0 hX
  obtain ⟨osi, Z, hosi0, hosi, hZ0, hZ, e3⟩ := radix_decode os _ Y ho hY0 hY
  obtain ⟨osj, k, hosj0, hosj, hk0, hk, e4⟩ := radix_decode os _ Z ho hZ0 hZ
  refine ⟨i, j, osi, osj, k, hi0, hi, hj0, hj, hosi0, hosi, hosj0, hosj, hk0, hk, ?_⟩
  unfold cindex
  rw [e1, e2, e3, e4]
  ring

theorem tableSize_assoc (support os wSize : Int) :
    tableSize support os wSize
      = (2 * support + 1) * ((2 * support + 1) * (os * (os * wSize))) := by
  unfold tableSize
  ring

theorem fillC_frame {K : Type} [LinearOrderedField K] (M : CMath K) (freq : List K)
    (cellSize : K) (wSize support os : Int) (wCellSize : K) (hs : 0 ≤ support) (ho : 0 ≤ os)
    (C : Int → Value K) (p : Int)
    (hp : ¬ (0 ≤ p ∧ p < tableSize support os wSize)) :
    fillC M freq cellSize wSize support os wCellSize C p = C p := by
  have hs1 : 0 ≤ 2 * support + 1 := by omega
  have hL : 0 ≤ (2 * support + 1) * (2 * support + 1) * os * os :=
    mul_nonneg (mul_nonneg (mul_nonneg hs1 hs1) ho) ho
  unfold fillC
  refine block_forLoop_frame wSize.toNat _ 0
    ((2 * support + 1) * (2 * support + 1) * os * os) hL ?_ C p ?_
  · intro k _ C q hq
    exact fillPlane_frame M _ os _ _ _ k hs1 ho C q hq
  · intro hq
    apply hp
    by_cases hw : 0 ≤ wSize
    · rw [Int.toNat_of_nonneg hw, zero_add] at hq
      exact hq
    · have h0 : wSize.toNat = 0 := Int.toNat_eq_zero.mpr (by omega)
      rw [h0] at hq
      simp only [Nat.cast_zero, mul_zero, add_zero] at hq
      omega

theorem forLoop_invariant {σ : Type} (P : Nat → σ → Prop) (n : Nat) (body : Nat → σ → σ)
    (s : σ) (h0 : P 0 s) (hstep : ∀ i t, i < n → P i t → P (i + 1) (body i t)) :
    P n (forLoop n body s) := by
  induction n with
  | zero => exact h0
  | succ n ih =>
    exact hstep n _ (Nat.lt_succ_self n)
      (ih (fun i t hi hp => hstep i t (Nat.lt_succ_of_lt hi) hp))

theorem fillCG_store {K : Type} [LinearOrderedField K] (M : CMath K) (freq : List K)
    (cellSize : K) (wSize support overSample : Int) (wCellSize : K) (C : Int → Value K) :
    fillCG storeWrite M freq cellSize wSize support overSample wCellSize C
      = fillC M freq cellSize wSize support overSample wCellSize C := rfl

theorem logUpTo_write {K : Type} [LinearOrderedField K] (W : List (Int × Value K)) (c : Int)
    (v : Value K) (h : LogUpTo W c) : LogUpTo (logWrite c v W) (c + 1) := by
  obtain ⟨h0, h1⟩ := h
  refine ⟨by omega, ?_⟩
  have hc : (c + 1).toNat = c.toNat + 1 := by omega
  unfold logWrite
  rw [List.map_append, h1, hc, List.range_succ, List.map_append, List.map_singleton,
    List.map_singleton, Int.toNat_of_nonneg h0]

theorem block_log {K : Type} [LinearOrderedField K] (n : Nat)
    (body : Nat → List (Int × Value K) → List (Int × Value K)) (B L : Int)
    (h : ∀ j, j < n → ∀ W, LogUpTo W (B + L * (j : Int)) →
      LogUpTo (body j W) (B + L * (j : Int) + L))
    (W : List (Int × Value K)) (hW : LogUpTo W B) :
    LogUpTo (forLoop n body W) (B + L * (n : Int)) := by
  refine forLoop_invariant (fun j W => LogUpTo W (B + L * (j : Int))) n body W ?_ ?_
  · simpa using hW
  · intro j t hj ht
    have e : B + L * ((j + 1 : Nat) : Int) = B + L * (j : Int) + L := by
      push_cast
      ring
    rw [e]
    exact h j hj t ht

theorem fillRowG_log {K : Type} [LinearOrderedField K] (M : CMath K) (s os cCenter : Int)
    (w fScale : K) (k osj osi j : Nat) (hs : 0 ≤ s) (W : List (Int × Value K))
    (hW : LogUpTo W (s * s * os * os * (k : Int) + s * s * os * (osj : Int)
      + s * s * (osi : Int) + s * (j : Int))) :
    LogUpTo (fillRowG logWrite M s os cCenter w fScale k osj osi j W)
      (s * s * os * os * (k : Int) + s * s * os * (osj : Int) + s * s * (osi : Int)
        + s * (j : Int) + s) := by
  have h := block_log s.toNat
    (fun i W => logWrite (cindex s os i j osi osj k) (cEntry M cCenter os w fScale osj osi j i)
      W)
    (s * s * os * os * (k : Int) + s * s * os * (osj : Int) + s * s * (osi : Int)
      + s * (j : Int)) 1
    (fun i _ W hWi => by
      show LogUpTo (logWrite (cindex s os i j osi osj k) _ W) _
      rw [cindex_eq]
      exact logUpTo_write W _ _ hWi) W hW
  rw [Int.toNat_of_nonneg hs, one_mul] at h
  exact h

theorem fillKernelG_log {K : Type} [LinearOrderedField K] (M : CMath K) (s os cCenter : Int)
    (w fScale : K) (k osj osi : Nat) (hs : 0 ≤ s) (W : List (Int × Value K))
    (hW : LogUpTo W (s * s * os * os * (k : Int) + s * s * os * (osj : Int)
      + s * s * (osi : Int))) :
    LogUpTo (fillKernelG logWrite M s os cCenter w fScale k osj osi W)
      (s * s * os * os * (k : Int) + s * s * os * (osj : Int) + s * s * (osi : Int)
        + s * s) := by
  have h := block_log s.toNat
    (fun j W => fillRowG logWrite M s os cCenter w fScale k osj osi j W)
    (s * s * os * os * (k : Int) + s * s * os * (osj : Int) + s * s * (osi : Int)) s
    (fun j _ W hWj => fillRowG_log M s os cCenter w fScale k osj osi j hs W hWj) W hW
  rw [Int.toNat_of_nonneg hs] at h
  exact h

theorem fillOsiG_log {K : Type} [LinearOrderedField K] (M : CMath K) (s os cCenter : Int)
    (w fScale : K) (k osj : Nat) (hs : 0 ≤ s) (ho : 0 ≤ os) (W : List (Int × Value K))
    (hW : LogUpTo W (s * s * os * os * (k : Int) + s * s * os * (osj : Int))) :
    LogUpTo (fillOsiG logWrite M s os cCenter w fScale k osj W)
      (s * s * os * os * (k : Int) + s * s * os * (osj : Int) + s * s * os) := by
  have h := block_log os.toNat
    (fun osi W => fillKernelG logWrite M s os cCenter w fScale k osj osi W)
    (s * s * os * os * (k : Int) + s * s * os * (osj : Int)) (s * s)
    (fun osi _ W hWi => fillKernelG_log M s os cCenter w fScale k osj osi hs W hWi) W hW
  rw [Int.toNat_of_nonneg ho] at h
  exact h

theorem fillPlaneG_log {K : Type} [LinearOrderedField K] (M : CMath K) (s os cCenter : Int)
    (w fScale : K) (k : Nat) (hs : 0 ≤ s) (ho : 0 ≤ os) (W : List (Int × Value K))
    (hW : LogUpTo W (0 + s * s * os * os * (k : Int))) :
    LogUpTo (fillPlaneG logWrite M s os cCenter w fScale k W)
      (0 + s * s * os * os * (k : Int) + s * s * os * os) := by
  rw [zero_add] at hW ⊢
  have h := block_log os.toNat
    (fun osj W => fillOsiG logWrite M s os cCenter w fScale k osj W)
    (s * s * os * os * (k : Int)) (s * s * os)
    (fun osj _ W hWj => fillOsiG_log M s os cCenter w fScale k osj hs ho W hWj) W hW
  rw [Int.toNat_of_nonneg ho] at h
  exact h

theorem fillCG_log {K : Type} [LinearOrderedField K] (M : CMath K) (freq : List K)
    (cellSize : K) (wSize support os : Int) (wCellSize : K) (hs : 0 ≤ support) (ho : 0 ≤ os) :
    (fillCG logWrite M freq cellSize wSize support os wCellSize []).map Prod.fst
      = (List.range (tableSize support os wSize).toNat).map (fun n : Nat => (n : Int)) := by
  have hs1 : 0 ≤ 2 * support + 1 := by omega
  have hL : 0 ≤ (2 * support + 1) * (2 * support + 1) * os * os :=
    mul_nonneg (mul_nonneg (mul_nonneg hs1 hs1) ho) ho
  have h := block_log wSize.toNat
    (fun k W => fillPlaneG logWrite M (2 * support + 1) os ((2 * support + 1 - 1).tdiv 2)
      (planeW wSize k) (planeFScale M freq cellSize wCellSize (planeW wSize k)) k W)
    0 ((2 * support + 1) * (2 * support + 1) * os * os)
    (fun k _ W hWk => fillPlaneG_log M (2 * support + 1) os _ _ _ k hs1 ho W hWk) []
    ⟨le_refl 0, rfl⟩
  have hn : (0 + (2 * support + 1) * (2 * support + 1) * os * os * (wSize.toNat : Int)).toNat
      = (tableSize support os wSize).toNat := by
    unfold tableSize
    by_cases hw : 0 ≤ wSize
    · rw [Int.toNat_of_nonneg hw, zero_add]
    · have h0 : wSize.toNat = 0 := Int.toNat_eq_zero.mpr (by omega)
      have hneg : (2 * support + 1) * (2 * support + 1) * os * os * wSize ≤ 0 :=
        mul_nonpos_of_nonneg_of_nonpos hL (by omega)
      rw [h0, Int.toNat_eq_zero.mpr hneg]
      simp
  rw [← hn]
  exact h.2

theorem forLoop_rel {σ τ : Type} (R : σ → τ → Prop) (n : Nat) (f : Nat → σ → σ)
    (g : Nat → τ → τ) (h : ∀ i a b, R a b → R (f i a) (g i b)) (a : σ) (b : τ) (hab : R a b) :
    R (forLoop n f a) (forLoop n g b) := by
  induction n with
  | zero => exact hab
  | succ n ih => exact h n _ _ ih

theorem fillCG_rel {K : Type} [LinearOrderedField K] {σ τ : Type} (R : σ → τ → Prop)
    (w1 : Int → Value K → σ → σ) (w2 : Int → Value K → τ → τ)
    (h : ∀ c v a b, R a b → R (w1 c v a) (w2 c v b)) (M : CMath K) (freq : List K)
    (cellSize : K) (wSize support os : Int) (wCellSize : K) (a : σ) (b : τ) (hab : R a b) :
    R (fillCG w1 M freq cellSize wSize support os wCellSize a)
      (fillCG w2 M freq cellSize wSize support os wCellSize b) := by
  unfold fillCG
  refine forLoop_rel R _ _ _ (fun k a b hab => ?_) a b hab
  refine forLoop_rel R _ _ _ (fun osj a b hab => ?_) a b hab
  refine forLoop_rel R _ _ _ (fun osi a b hab => ?_) a b hab
  refine forLoop_rel R _ _ _ (fun j a b hab => ?_) a b hab
  refine forLoop_rel R _ _ _ (fun i a b hab => ?_) a b hab
  exact h _ _ a b hab

theorem fillCG_replay {K : Type} [LinearOrderedField K] (M : CMath K) (freq : List K)
    (cellSize : K) (wSize support os : Int) (wCellSize : K) (C0 : Int → Value K) :
    fillC M freq cellSize wSize support os wCellSize C0
      = replayLog (fillCG logWrite M freq cellSize wSize support os wCellSize []) C0 := by
  rw [← fillCG_store]
  refine fillCG_rel (fun (C : Int → Value K) (W : List (Int × Value K)) => C = replayLog W C0)
    storeWrite logWrite ?_ M freq cellSize wSize support os wCellSize C0 [] rfl
  intro c v C W hCW
  rw [hCW]
  simp [replayLog, logWrite, List.foldl_append]

/-- C18 (table shape and full coverage): the table of `initC` has
`sSize^2 * overSample^2 * wSize` entries with `sSize = 2*support+1`. For `support ≥ 0` and a
positive oversample factor, the index `cind` of a tuple `(i, j, osi, osj, k)` with
`i, j < sSize`, `osi, osj < overSample`, `k < wSize` lies in `[0, length)`, distinct tuples
have distinct indices, and every index of `[0, length)` is the index of a tuple. The
construction loops `fillC` change no entry outside `[0, length)` and leave at the index of
every tuple the value computed for that tuple, whatever the table held before. The same loops
run on a log of writes (`fillCG logWrite`; run on the table they are `fillC`) record writes
to exactly the indices `0, 1, ..., length - 1`, each once, and performing the logged writes
on the initial table gives the table that `fillC` builds. -/
theorem table_shape_coverage {K : Type} [LinearOrderedField K] (support overSample wSize : Int)
    (hs : 0 ≤ support) (ho : 0 < overSample) :
    tableSize support overSample wSize = (2 * support + 1) ^ 2 * overSample ^ 2 * wSize
      ∧ (∀ i j osi osj k : Int, 0 ≤ i → i < 2 * support + 1 → 0 ≤ j → j < 2 * support + 1 →
          0 ≤ osi → osi < overSample → 0 ≤ osj → osj < overSample → 0 ≤ k → k < wSize →
          0 ≤ cindex (2 * support + 1) overSample i j osi osj k
            ∧ cindex (2 * support + 1) overSample i j osi osj k
              < tableSize support overSample wSize)
      ∧ (∀ i j osi osj k i' j' osi' osj' k' : Int,
          0 ≤ i → i < 2 * support + 1 → 0 ≤ j → j < 2 * support + 1 →
          0 ≤ osi → osi < overSample → 0 ≤ osj → osj < overSample →
          0 ≤ i' → i' < 2 * support + 1 → 0 ≤ j' → j' < 2 * support + 1 →
          0 ≤ osi' → osi' < overSample → 0 ≤ osj' → osj' < overSample →
          cindex (2 * support + 1) overSample i j osi osj k
            = cindex (2 * support + 1) overSample i' j' osi' osj' k' →
          i = i' ∧ j = j' ∧ osi = osi' ∧ osj = osj' ∧ k = k')
      ∧ (∀ p : Int, 0 ≤ p → p < tableSize support overSample wSize →
          ∃ i j osi osj k : Int, 0 ≤ i ∧ i < 2 * support + 1 ∧ 0 ≤ j ∧ j < 2 * support + 1
            ∧ 0 ≤ osi ∧ osi < overSample ∧ 0 ≤ osj ∧ osj < overSample ∧ 0 ≤ k ∧ k < wSize
            ∧ cindex (2 * support + 1) overSample i j osi osj k = p)
      ∧ (∀ (M : CMath K) (freq : List K) (cellSize wCellSize : K) (C0 : Int → Value K)
          (p : Int), ¬ (0 ≤ p ∧ p < tableSize support overSample wSize) →
          fillC M freq cellSize wSize support overSample wCellSize C0 p = C0 p)
      ∧ (∀ (M : CMath K) (freq : List K) (cellSize wCellSize : K) (C0 : Int → Value K)
          (k osj osi j i : Nat), (k : Int) < wSize → (osj : Int) < overSample →
          (osi : Int) < overSample → (j : Int) < 2 * support + 1 →
          (i : Int) < 2 * support + 1 →
          fillC M freq cellSize wSize support overSample wCellSize C0
              (cindex (2 * support + 1) overSample i j osi osj k)
            = cEntry M ((2 * support + 1 - 1).tdiv 2) overSample (planeW wSize k)
                (planeFScale M freq cellSize wCellSize (planeW wSize k)) osj osi j i)
      ∧ (∀ (M : CMath K) (freq : List K) (cellSize wCellSize : K) (C0 : Int → Value K),
          fillCG storeWrite M freq cellSize wSize support overSample wCellSize C0
            = fillC M freq cellSize wSize support overSample wCellSize C0)
      ∧ (∀ (M : CMath K) (freq : List K) (cellSize wCellSize : K),
          (fillCG logWrite M freq cellSize wSize support overSample wCellSize []).map Prod.fst
            = (List.range (tableSize support overSample wSize).toNat).map
                (fun n : Nat => (n : Int)))
      ∧ (∀ (M : CMath K) (freq : List K) (cellSize wCellSize : K) (C0 : Int → Value K),
          fillC M freq cellSize wSize support overSample wCellSize C0
            = replayLog (fillCG logWrite M freq cellSize wSize support overSample wCellSize [])
                C0) := by
  refine ⟨by unfold tableSize; ring, ?_, ?_, ?_, ?_, ?_, ?_, ?_, ?_⟩
  · intro i j osi osj k hi0 hi hj0 hj hosi0 hosi hosj0 hosj hk0 hk
    rw [tableSize_assoc]
    exact cindex_range _ _ wSize i j osi osj k hi0 hi hj0 hj hosi0 hosi hosj0 hosj hk0 hk
  · intro i j osi osj k i' j' osi' osj' k' hi0 hi hj0 hj hosi0 hosi hosj0 hosj hi0' hi' hj0' hj'
      hosi0' hosi' hosj0' hosj' h
    exact cindex_inj _ _ i j osi osj k i' j' osi' osj' k' hi0 hi hj0 hj hosi0 hosi hosj0 hosj
      hi0' hi' hj0' hj' hosi0' hosi' hosj0' hosj' h
  · intro p hp0 hp
    rw [tableSize_assoc] at hp
    exact cindex_surj _ _ wSize p (by omega) ho hp0 hp
  · intro M freq cellSize wCellSize C0 p hp
    exact fillC_frame M freq cellSize wSize support overSample wCellSize hs ho.le C0 p hp
  · intro M freq cellSize wCellSize C0 k osj osi j i hk hosj hosi hj hi
    exact fillC_target M freq cellSize wSize support overSample wCellSize k osj osi j i
      hk hosj hosi hj hi C0
  · intro M freq cellSize wCellSize C0
    exact fillCG_store M freq cellSize wSize support overSample wCellSize C0
  · intro M freq cellSize wCellSize
    exact fillCG_log M freq cellSize wSize support overSample wCellSize hs ho.le
  · intro M freq cellSize wCellSize C0
    exact fillCG_replay M freq cellSize wSize support overSample wCellSize C0

/-- Witness of C18: the support and oversample factor returned by `initC` for unit baseline,
cell size and frequency over the real numbers, with three planes; the writes logged by the
construction loops go to the indices `0, 1, ..., length - 1` in this order. -/
theorem table_shape_coverage_witness :
    (fillCG logWrite (CMath.mk Real.sqrt Real.cos Real.exp) [1] 1 3
        (initC (CMath.mk Real.sqrt Real.cos Real.exp) 1 [1] 1 3 (zeroTable ℝ)).support
        (initC (CMath.mk Real.sqrt Real.cos Real.exp) 1 [1] 1 3 (zeroTable ℝ)).overSample
        (initC (CMath.mk Real.sqrt Real.cos Real.exp) 1 [1] 1 3 (zeroTable ℝ)).wCellSize
        []).map Prod.fst
      = (List.range (tableSize
          (initC (CMath.mk Real.sqrt Real.cos Real.exp) 1 [1] 1 3 (zeroTable ℝ)).support
          (initC (CMath.mk Real.sqrt Real.cos Real.exp) 1 [1] 1 3 (zeroTable ℝ)).overSample
          3).toNat).map (fun n : Nat => (n : Int)) :=
  (table_shape_coverage (K := ℝ)
    (initC (CMath.mk Real.sqrt Real.cos Real.exp) 1 [1] 1 3 (zeroTable ℝ)).support
    (initC (CMath.mk Real.sqrt Real.cos Real.exp) 1 [1] 1 3 (zeroTable ℝ)).overSample 3
    (initSupport_real 1 [1] 1 one_pos).2 (by show (0 : Int) < 8; decide)).2.2.2.2.2.2.2.1
    (CMath.mk Real.sqrt Real.cos Real.exp) [1] 1
    (initC (CMath.mk Real.sqrt Real.cos Real.exp) 1 [1] 1 3 (zeroTable ℝ)).wCellSize

end CoverageTheorems

/-! ## The fractional index on doubles -/

section DoubleTheorems

theorem roundDouble_of_exp (x : ℚ) (e : Int) (hx : x ≠ 0) (h1 : (2 : ℚ) ^ e ≤ |x|)
    (h2 : |x| < (2 : ℚ) ^ (e + 1)) :
    roundDouble x = (roundEven (x / 2 ^ (e - 52)) : ℚ) * 2 ^ (e - 52) := by
  have hpos : 0 < |x| := abs_pos.mpr hx
  have hlog : Int.log 2 |x| = e := by
    apply le_antisymm
    · have := (Int.lt_zpow_iff_log_lt (b := 2) (by norm_num) hpos (x := e + 1)).mp
        (by exact_mod_cast h2)
      omega
    · exact (Int.zpow_le_iff_le_log (b := 2) (by norm_num) hpos).mp (by exact_mod_cast h1)
  unfold roundDouble
  rw [if_neg hx]
  simp only [hlog]

theorem roundEven_intCast (n : Int) : roundEven (n : ℚ) = n := by
  unfold roundEven
  simp

theorem roundEven_up (x : ℚ) (f : Int) (h : 1 / 2 < x - (f : ℚ)) (h1 : x < (f : ℚ) + 1) :
    roundEven x = f + 1 := by
  have hf : ⌊x⌋ = f := Int.floor_eq_iff.mpr ⟨by linarith, h1⟩
  unfold roundEven
  simp only [hf]
  rw [if_neg (not_lt.mpr h.le), if_pos h]

theorem roundDouble_tiny : roundDouble (-(1 / 2 ^ 60)) = -(1 / 2 ^ 60) := by
  rw [roundDouble_of_exp _ (-60) (by norm_num) (by norm_num [abs_of_pos])
    (by norm_num [abs_of_pos])]
  have e : (-(1 / 2 ^ 60) : ℚ) / 2 ^ ((-60 : Int) - 52) = ((-(2 ^ 52) : Int) : ℚ) := by
    norm_num
  rw [e, roundEven_intCast]
  norm_num

theorem roundDouble_below_one : roundDouble (1 - 1 / 2 ^ 60) = 1 := by
  rw [roundDouble_of_exp _ (-1) (by norm_num) (by norm_num [abs_of_pos])
    (by norm_num [abs_of_pos])]
  rw [roundEven_up _ (2 ^ 53 - 1) (by norm_num) (by norm_num)]
  norm_num

theorem roundDouble_eight : roundDouble 8 = 8 := by
  rw [roundDouble_of_exp _ 3 (by norm_num) (by norm_num [abs_of_pos])
    (by norm_num [abs_of_pos])]
  have e : (8 : ℚ) / 2 ^ ((3 : Int) - 52) = ((2 ^ 52 : Int) : ℚ) := by norm_num
  rw [e, roundEven_intCast]
  norm_num

theorem floorIndex_tiny : floorIndex (-(1 / 2 ^ 60) : ℚ) = -1 := by
  have hc : ⌈(-(1 / 2 ^ 60) : ℚ)⌉ = 0 := by
    rw [Int.ceil_eq_iff]
    constructor <;> norm_num
  have hx : ¬ (0 : ℚ) ≤ -(1 / 2 ^ 60) := by norm_num
  have hlt : (-(1 / 2 ^ 60) : ℚ) < ((0 : Int) : ℚ) := by norm_num
  unfold floorIndex toInt
  simp only [if_neg hx, hc]
  rw [if_pos hlt]
  norm_num

/-- C5 (floor and fractional index), evaluation of the code on doubles: for
`freq[chan] = 1`, `u[i] = -2^-60`, `cellSize = 1` and `overSample = 8`, the scaled
coordinate is `-2^-60` and its floor is `-1`, as the claim says; the difference
`uScaled - Coord(iu) = 1 - 2^-60` rounds to `1.0`, so the code computes `fracu = 8`, which
is not below `overSample`, whereas `floor(overSample * (uScaled - floor(uScaled)))` is 7.
With `support = 1`, `fracv = 0` and plane 0 the offset of line 365 is then 72, the offset of
the fractional indices `(0, 1)`, not the 63 of `fracu = 7`. -/
theorem fracIndexD_reaches_overSample :
    uScaledD 1 (-(1 / 2 ^ 60)) 1 = -(1 / 2 ^ 60)
      ∧ floorIndex (uScaledD 1 (-(1 / 2 ^ 60)) 1) = -1
      ∧ roundDouble (uScaledD 1 (-(1 / 2 ^ 60)) 1
          - ((floorIndex (uScaledD 1 (-(1 / 2 ^ 60)) 1) : Int) : ℚ)) = 1
      ∧ fracIndexD 8 (uScaledD 1 (-(1 / 2 ^ 60)) 1) = 8
      ∧ ¬ (fracIndexD 8 (uScaledD 1 (-(1 / 2 ^ 60)) 1) < 8)
      ∧ ⌊(8 : ℚ) * (uScaledD 1 (-(1 / 2 ^ 60)) 1
          - ((⌊uScaledD 1 (-(1 / 2 ^ 60)) 1⌋ : Int) : ℚ))⌋ = 7
      ∧ cOffsetOf (2 * 1 + 1) 8 (fracIndexD 8 (uScaledD 1 (-(1 / 2 ^ 60)) 1)) 0 0 = 72
      ∧ cOffsetOf (2 * 1 + 1) 8 0 1 0 = 72
      ∧ cOffsetOf (2 * 1 + 1) 8 7 0 0 = 63 := by
  have hu : uScaledD 1 (-(1 / 2 ^ 60)) 1 = -(1 / 2 ^ 60) := by
    unfold uScaledD
    rw [one_mul, roundDouble_tiny, div_one, roundDouble_tiny]
  have e : (-(1 / 2 ^ 60) : ℚ) - ((-1 : Int) : ℚ) = 1 - 1 / 2 ^ 60 := by
    push_cast
    ring
  have hfrac : fracIndexD 8 (-(1 / 2 ^ 60)) = 8 := by
    unfold fracIndexD
    rw [floorIndex_tiny, e, roundDouble_below_one]
    have e2 : ((8 : Int) : ℚ) * 1 = 8 := by norm_num
    rw [e2, roundDouble_eight]
    unfold toInt
    rw [if_pos (by norm_num)]
    exact Int.floor_eq_iff.mpr ⟨by norm_num, by norm_num⟩
  have hfl : ⌊(-(1 / 2 ^ 60) : ℚ)⌋ = -1 := by
    rw [Int.floor_eq_iff]
    constructor <;> norm_num
  rw [hu]
  refine ⟨rfl, floorIndex_tiny, ?_, hfrac, ?_, ?_, ?_, by decide, by decide⟩
  · rw [floorIndex_tiny, e, roundDouble_below_one]
  · rw [hfrac]
    decide
  · rw [hfl, e, Int.floor_eq_iff]
    constructor <;> norm_num
  · rw [hfrac]
    decide

end DoubleTheorems

end Gridding
